import Mathlib

/-!
# Verification of the vibestation core

Shallow embedding of the vibestation script compiler (config/sublang.go),
path engine (message/jsonpath.go, message/message.go), pipeline applier
(transform.Apply) and the split transforms, together with proofs of the
specification's testable properties.

Conventions:
* Go byte slices are modelled as `String` (rune-level; exact on ASCII data).
* Go `map[string]interface{}` JSON trees are modelled by the inductive
  `Json`; `encoding/json` marshal/unmarshal between bytes and trees is the
  identity on this representation (message payload bytes are modelled by
  their parse status, see `Content`).
* Go `int` is 64-bit; `atoi` models `strconv.Atoi` including its range check.
-/

/-- Model of `strconv.Atoi`: optional sign, decimal digits, 64-bit range. -/
def atoi (s : String) : Option Int :=
  let l := s.data
  let p : Bool × List Char :=
    match l with
    | '+' :: r => (false, r)
    | '-' :: r => (true, r)
    | r => (false, r)
  let ds := p.2
  if ds.isEmpty then none
  else if ds.all Char.isDigit then
    let n : Nat := ds.foldl (fun a c => a * 10 + (c.toNat - 48)) 0
    let v : Int := if p.1 then -(n : Int) else (n : Int)
    if v < -(2 ^ 63) ∨ 2 ^ 63 - 1 < v then none else some v
  else none

example : atoi "42" = some 42 := by decide
example : atoi "-0" = some 0 := by decide
example : atoi "$" = none := by decide
example : atoi "" = none := by decide

/-- `strings.HasPrefix` (list-based so concrete evaluations reduce). -/
def strStartsWith (s pre : String) : Bool := pre.data.isPrefixOf s.data

/-- `strings.TrimSpace` (exact on ASCII whitespace; implemented over the
character list so that concrete evaluations reduce definitionally). -/
def goTrim (s : String) : String :=
  String.mk ((s.data.dropWhile Char.isWhitespace).reverse.dropWhile Char.isWhitespace |>.reverse)

example : goTrim "  a b " = "a b" := by decide

theorem str_eq_empty_iff (s : String) : s = "" ↔ s.data = [] := by
  cases s
  simp [String.ext_iff]

/-! ## JSON value trees (message/jsonpath.go)

A Go `interface{}` tree produced by `json.Unmarshal`: `nil`, `string`,
numbers (modelled as integers; float formatting is orthogonal to the path
engine), `bool`, `[]interface{}` and `map[string]interface{}`.  Go maps are
modelled as association lists with first-match semantics; trees reachable
from `json.Unmarshal` have unique keys, on which the two coincide. -/

inductive Json where
  | null
  | str (s : String)
  | int (n : Int)
  | bool (b : Bool)
  | arr (xs : List Json)
  | obj (kvs : List (String × Json))

/-- Go map read `v[part]` with its `exists` flag. -/
def jlookup : List (String × Json) → String → Option Json
  | [], _ => none
  | (k, v) :: rest, key => if k = key then some v else jlookup rest key

/-- Go map write `v[key] = value`. -/
def jinsert : List (String × Json) → String → Json → List (String × Json)
  | [], key, v => [(key, v)]
  | (k, w) :: rest, key, v =>
    if k = key then (k, v) :: rest else (k, w) :: jinsert rest key v

/-- Go map delete `delete(v, key)`. -/
def jerase : List (String × Json) → String → List (String × Json)
  | [], _ => []
  | (k, w) :: rest, key => if k = key then rest else (k, w) :: jerase rest key

/-- `JSONPath.getFromInterface`: walk the tree segment by segment. -/
def Json.getIn (obj : Json) : List String → Except String Json
  | [] => .ok obj
  | part :: rest =>
    match obj with
    | .obj kvs =>
      match jlookup kvs part with
      | some v => v.getIn rest
      | none => .error ("key '" ++ part ++ "' not found")
    | .arr xs =>
      match atoi part with
      | some idx =>
        if idx < 0 then .error ("invalid array index '" ++ part ++ "'")
        else
          match xs.get? idx.toNat with
          | some v => v.getIn rest
          | none => .error ("invalid array index '" ++ part ++ "'")
      | none => .error ("invalid array index '" ++ part ++ "'")
    | _ => .error ("cannot access key '" ++ part ++ "' in non-object/non-array")

/-- Functional rendering of Go's in-place mutation of the node reached at
`path`: replace that node by `newVal`.  (Go maps and slices are reference
types, and the trees built by `json.Unmarshal` are unshared, so mutating
the node found by a walk equals replacing the subtree at that path.)
When the path does not resolve the tree is returned unchanged; the callers
below only reach this function with a resolving path. -/
def updateAt : Json → List String → Json → Json
  | _, [], newVal => newVal
  | .obj kvs, part :: rest, newVal =>
    match jlookup kvs part with
    | some child => .obj (jinsert kvs part (updateAt child rest newVal))
    | none => .obj kvs
  | .arr xs, part :: rest, newVal =>
    (match atoi part with
     | some idx =>
       if idx < 0 then Json.arr xs
       else
         match xs.get? idx.toNat with
         | some child => Json.arr (xs.set idx.toNat (updateAt child rest newVal))
         | none => Json.arr xs
     | none => Json.arr xs)
  | other, _ :: _, _ => other

/-- `JSONPath.setInInterface`.  The Go code keeps the parent obtained from
the first successful `getFromInterface`; in the branch where navigation
succeeds no tree was modified, so re-reading the parent below returns the
same node, and in the creation branch Go itself re-reads (discarding the
error, leaving `parent = nil` on failure), which the `Json.null` default
mirrors. -/
def Json.setIn (obj : Json) (parts : List String) (value : Json) : Except String Json :=
  match parts with
  | [] => .ok value
  | [part0] =>
    -- if obj == nil, create a new map; single segment: assign at root level
    let obj1 := match obj with | .null => Json.obj [] | o => o
    (match obj1 with
     | .obj kvs => .ok (.obj (jinsert kvs part0 value))
     | _ => .error ("cannot set key '" ++ part0 ++ "' in non-object"))
  | part0 :: part1 :: rest1 =>
    -- if obj == nil, create a new map
    let obj1 := match obj with | .null => Json.obj [] | o => o
    let parentPath := (part0 :: part1 :: rest1).dropLast
    let lastPart := (part0 :: part1 :: rest1).getLast (by simp)
    (
    match (match obj1.getIn parentPath with
           | .ok _ => Except.ok obj1
           | .error _ => Json.setIn obj1 parentPath (Json.obj [])) with
    | .error e => .error e
    | .ok obj2 =>
      let parent := match obj2.getIn parentPath with | .ok p => p | .error _ => Json.null
      match parent with
      | .obj kvs => .ok (updateAt obj2 parentPath (.obj (jinsert kvs lastPart value)))
      | .arr xs =>
        match atoi lastPart with
        | some idx =>
          if idx < 0 then .error ("invalid array index '" ++ lastPart ++ "'")
          else
            -- extend the array with null padding if needed, then assign
            let padded := xs ++ List.replicate (idx.toNat + 1 - xs.length) Json.null
            match Json.setIn obj2 parentPath (.arr (padded.set idx.toNat value)) with
            | .ok o => .ok o
            | .error _ => .ok Json.null  -- Go: obj, _ = setInInterface(...); return obj, nil
        | none => .error ("invalid array index '" ++ lastPart ++ "'")
      | _ => .error ("cannot set key '" ++ lastPart ++ "' in non-object/non-array"))
termination_by parts.length
decreasing_by all_goals simp [List.length_dropLast]

/-- `JSONPath.deleteFromInterface`. -/
def Json.deleteIn (obj : Json) (parts : List String) : Except String Json :=
  match parts with
  | [] => .ok obj
  | [part0] =>
    (match obj with
     | .obj kvs => .ok (.obj (jerase kvs part0))
     | _ => .error ("cannot delete key '" ++ part0 ++ "' from non-object"))
  | part0 :: part1 :: rest1 =>
    let parentPath := (part0 :: part1 :: rest1).dropLast
    let lastPart := (part0 :: part1 :: rest1).getLast (by simp)
    (match obj.getIn parentPath with
      | .error _ => .ok obj  -- parent doesn't exist, nothing to delete
      | .ok parent =>
        match parent with
        | .obj kvs =>
          match Json.setIn obj parentPath (.obj (jerase kvs lastPart)) with
          | .ok o => .ok o
          | .error _ => .ok Json.null
        | .arr xs =>
          match atoi lastPart with
          | some idx =>
            if 0 ≤ idx ∧ idx < (xs.length : Int) then
              -- set to null instead of removing, to maintain array structure
              match Json.setIn obj parentPath (.arr (xs.set idx.toNat Json.null)) with
              | .ok o => .ok o
              | .error _ => .ok Json.null
            else .ok obj
          | none => .ok obj
        | _ => .ok obj)

/-! ## Messages (message/message.go)

A message owns payload bytes and metadata bytes.  For the JSON-path
methods the bytes only matter through their parse status, which `Content`
records: an empty buffer, bytes that fail `json.Unmarshal`, or the parsed
tree (marshalling a tree and re-parsing it is the identity, so results of
`Set`/`Delete` are stored as `.tree`). -/

inductive Content where
  | empty
  | invalid
  | tree (j : Json)

/-- `strings.Split` for a one-character separator, over the character
list (so concrete evaluations reduce definitionally). -/
def splitCharList (c : Char) : List Char → List (List Char)
  | [] => [[]]
  | x :: rest =>
    if x = c then [] :: splitCharList c rest
    else
      match splitCharList c rest with
      | h :: t => (x :: h) :: t
      | [] => [[x]]

/-- `strings.Split(s, string(c))`. -/
def strSplitChar (s : String) (c : Char) : List String :=
  (splitCharList c s.data).map String.mk

example : strSplitChar "meta.$.x" '.' = ["meta", "$", "x"] := rfl
example : strSplitChar "" '.' = [""] := rfl

/-- `NewJSONPath`: split the (full) path on `"."`. -/
def NewJSONPath (path : String) : List String :=
  if path = "" then [] else strSplitChar path '.'

/-- `JSONPath.Get` on a byte buffer. -/
def JSONPath.Get (parts : List String) (data : Content) : Except String Json :=
  match data with
  | .empty => .ok .null  -- Go: len(data) == 0 → (nil, nil)
  | .invalid => .error "unexpected end of JSON input"
  | .tree obj => obj.getIn parts

/-- `JSONPath.Set` on a byte buffer. -/
def JSONPath.Set (parts : List String) (data : Content) (value : Json) :
    Except String Content :=
  match data with
  | .empty => (Json.setIn (.obj []) parts value).map .tree  -- len 0 → []byte("{}")
  | .invalid => .error "invalid JSON input"
  | .tree obj => (obj.setIn parts value).map .tree

/-- `JSONPath.Delete` on a byte buffer. -/
def JSONPath.Delete (parts : List String) (data : Content) : Except String Content :=
  match data with
  | .empty => .ok .empty  -- Go: len(data) == 0 → unchanged, no error
  | .invalid => .error "invalid JSON input"
  | .tree obj => (obj.deleteIn parts).map .tree

/-- `message.Message` (JSON-path view). -/
structure Message where
  data : Content
  meta : Content
  ctrl : Bool

/-- `message.Value`: a value returned by `GetValue`; `found` embeds the Go
field `exists`. -/
structure Value where
  value : Json
  found : Bool

/-- `Value.Exists`: `v.exists && v.value != nil`. -/
def Value.Exists (v : Value) : Bool :=
  v.found && (match v.value with | .null => false | _ => true)

/-- `isValidJSONPath`: the path must be a root token or start with a root
prefix.  `goTrim` models `strings.TrimSpace` (exact on ASCII).  The
Go function re-trims its argument; every caller passes an already-trimmed
path, making that a no-op, so the model takes the trimmed path. -/
def isValidJSONPath (path : String) : Bool :=
  path = "$" || path = "meta.$" || strStartsWith path "$." || strStartsWith path "meta.$."

/-- `Message.GetValue`. -/
def Message.GetValue (m : Message) (path : String) : Value :=
  let path := goTrim path
  if ¬ isValidJSONPath path then ⟨.null, false⟩
  else if path = "$" then
    match m.data with
    | .tree obj => ⟨obj, true⟩
    | _ => ⟨.null, false⟩  -- json.Unmarshal failure
  else if path = "meta.$" then
    match m.meta with
    | .tree obj => ⟨obj, true⟩
    | _ => ⟨.null, false⟩
  else if strStartsWith path "meta.$." then
    match JSONPath.Get (NewJSONPath path) m.meta with
    | .ok v => ⟨v, true⟩
    | .error _ => ⟨.null, false⟩
  else if strStartsWith path "$." then
    match JSONPath.Get (NewJSONPath path) m.data with
    | .ok v => ⟨v, true⟩
    | .error _ => ⟨.null, false⟩
  else ⟨.null, false⟩

/-- `Message.SetValue`. -/
def Message.SetValue (m : Message) (path : String) (value : Json) :
    Except String Message :=
  let path := goTrim path
  if ¬ isValidJSONPath path then .error ("invalid JSONPath: " ++ path)
  else if path = "$" then .ok { m with data := .tree value }
  else if path = "meta.$" then .ok { m with meta := .tree value }
  else if strStartsWith path "meta.$." then
    match JSONPath.Set (NewJSONPath path) m.meta value with
    | .ok c => .ok { m with meta := c }
    | .error e => .error e
  else if strStartsWith path "$." then
    match JSONPath.Set (NewJSONPath path) m.data value with
    | .ok c => .ok { m with data := c }
    | .error e => .error e
  else .error ("invalid JSONPath: " ++ path)

/-- `Message.DeleteValue`. -/
def Message.DeleteValue (m : Message) (path : String) : Except String Message :=
  let path := goTrim path
  if ¬ isValidJSONPath path then .error ("invalid JSONPath: " ++ path)
  else if path = "$" then .ok { m with data := .tree (.obj []) }
  else if path = "meta.$" then .ok { m with meta := .tree (.obj []) }
  else if strStartsWith path "meta.$." then
    match JSONPath.Delete (NewJSONPath path) m.meta with
    | .ok c => .ok { m with meta := c }
    | .error e => .error e
  else if strStartsWith path "$." then
    match JSONPath.Delete (NewJSONPath path) m.data with
    | .ok c => .ok { m with data := c }
    | .error e => .error e
  else .error ("invalid JSONPath: " ++ path)

/-! ## Byte-level message view (message/message.go: Data/Metadata/control)

The same Go `message.Message` seen through its raw-bytes methods, used by
the transform package.  Bytes are `Option String` (`none` = nil slice). -/

structure BMessage where
  data : Option String
  meta : Option String
  ctrl : Bool

/-- `message.New()`. -/
def BMessage.New : BMessage := ⟨none, none, false⟩

/-- `Message.AsControl`: clears data and metadata and sets the flag. -/
def BMessage.AsControl (_ : BMessage) : BMessage := ⟨none, none, true⟩

/-- `Message.IsControl`. -/
def BMessage.IsControl (m : BMessage) : Bool := m.ctrl

/-- `Message.Data`: nil for control messages. -/
def BMessage.Data (m : BMessage) : Option String :=
  if m.ctrl then none else m.data

/-- `Message.SetData`: no-op for control messages. -/
def BMessage.SetData (m : BMessage) (d : Option String) : BMessage :=
  if m.ctrl then m else { m with data := d }

/-- `Message.Metadata`: nil for control messages. -/
def BMessage.Metadata (m : BMessage) : Option String :=
  if m.ctrl then none else m.meta

/-- `Message.SetMetadata`: no-op for control messages. -/
def BMessage.SetMetadata (m : BMessage) (d : Option String) : BMessage :=
  if m.ctrl then m else { m with meta := d }

/-! ## bytes.Split -/

/-- `bytes.Index`: first index at which `sep` occurs in `s`. -/
def subIndex (s sep : List Char) : Option Nat :=
  if sep.isPrefixOf s then some 0
  else
    match s with
    | [] => none
    | _ :: t => (subIndex t sep).map (· + 1)

theorem subIndex_bound (sep : List Char) :
    ∀ (s : List Char) (i : Nat), subIndex s sep = some i → i + sep.length ≤ s.length := by
  intro s
  induction s with
  | nil =>
    intro i h
    rw [subIndex] at h
    split at h
    · rename_i hp
      cases h
      have : sep = [] := by
        cases sep with
        | nil => rfl
        | cons a t => simp [List.isPrefixOf] at hp
      simp [this]
    · exact absurd h (by simp)
  | cons c t ih =>
    intro i h
    rw [subIndex] at h
    split at h
    · rename_i hp
      cases h
      have : sep <+: (c :: t) := List.isPrefixOf_iff_prefix.mp hp
      simpa using this.length_le
    · simp only [Option.map_eq_some'] at h
      obtain ⟨j, hj, rfl⟩ := h
      have := ih j hj
      simp only [List.length_cons]
      omega

/-- `bytes.Split` for a non-empty separator (`genSplit`); the empty-separator
case (Go explodes into runes) is unreachable because `split_string`
validates a non-empty separator at construction time. -/
def bytesSplit (s sep : List Char) : List (List Char) :=
  if hsep : sep = [] then [s]
  else
    match hidx : subIndex s sep with
    | none => [s]
    | some i => s.take i :: bytesSplit (s.drop (i + sep.length)) sep
termination_by s.length
decreasing_by
  have hb := subIndex_bound sep s i hidx
  have hs : sep.length ≠ 0 := by simpa [List.length_eq_zero] using hsep
  simp only [List.length_drop]
  omega

/-! ## A JSON serializer (encoding/json.Marshal)

Only used to represent the bytes produced when a transform writes a value
through a target path; no theorem depends on its details beyond
non-emptiness.  (Go additionally sorts object keys and HTML-escapes
`<`, `>`, `&`; both are orthogonal here.) -/

/-- Decimal digits of a natural number (fuel-structured so that concrete
evaluations reduce; `n + 1` units of fuel always suffice). -/
def natReprAux : Nat → Nat → List Char
  | 0, _ => []
  | fuel + 1, n =>
    if n < 10 then [Char.ofNat (48 + n)]
    else natReprAux fuel (n / 10) ++ [Char.ofNat (48 + n % 10)]

/-- Decimal representation of a natural number. -/
def natRepr (n : Nat) : String := String.mk (natReprAux (n + 1) n)

example : natRepr 0 = "0" := rfl
example : natRepr 1234 = "1234" := rfl

/-- Decimal representation of an integer. -/
def intRepr (n : Int) : String :=
  if n < 0 then "-" ++ natRepr n.natAbs else natRepr n.toNat

/-- JSON string escaping for one character. -/
def escChar (c : Char) : String :=
  if c = '"' then "\\\""
  else if c = '\\' then "\\\\"
  else if c = '\n' then "\\n"
  else if c = '\t' then "\\t"
  else if c = '\r' then "\\r"
  else String.mk [c]

mutual
/-- `json.Marshal` of a tree. -/
def marshal : Json → String
  | .null => "null"
  | .bool true => "true"
  | .bool false => "false"
  | .int n => intRepr n
  | .str s => "\"" ++ String.join (s.data.map escChar) ++ "\""
  | .arr xs => "[" ++ marshalList xs ++ "]"
  | .obj kvs => "\x7b" ++ marshalKVs kvs ++ "\x7d"

def marshalList : List Json → String
  | [] => ""
  | [x] => marshal x
  | x :: y :: rest => marshal x ++ "," ++ marshalList (y :: rest)

def marshalKVs : List (String × Json) → String
  | [] => ""
  | [(k, v)] => "\"" ++ String.join (k.data.map escChar) ++ "\":" ++ marshal v
  | (k, v) :: kv2 :: rest =>
    "\"" ++ String.join (k.data.map escChar) ++ "\":" ++ marshal v ++ "," ++ marshalKVs (kv2 :: rest)
end

theorem prepend_ne_empty (a b : String) (h : a.data ≠ []) : a ++ b ≠ "" := by
  intro hc
  have hd := congrArg String.data hc
  rw [String.data_append] at hd
  have h0 : ("" : String).data = [] := rfl
  rw [h0] at hd
  exact h (List.append_eq_nil.mp hd).1

theorem natReprAux_ne_nil (fuel n : Nat) : natReprAux (fuel + 1) n ≠ [] := by
  rw [natReprAux]
  split
  · simp
  · simp

theorem natRepr_ne_empty (n : Nat) : natRepr n ≠ "" := by
  intro h
  exact natReprAux_ne_nil n n ((str_eq_empty_iff _).mp h)

theorem marshal_ne_empty (j : Json) : marshal j ≠ "" := by
  cases j with
  | null => decide
  | bool b => cases b <;> decide
  | int n =>
    simp only [marshal, intRepr]
    split
    · exact prepend_ne_empty _ _ (by decide)
    · exact natRepr_ne_empty _
  | str s =>
    simp only [marshal]
    rw [String.append_assoc]
    exact prepend_ne_empty _ _ (by decide)
  | arr xs =>
    simp only [marshal]
    rw [String.append_assoc]
    exact prepend_ne_empty _ _ (by decide)
  | obj kvs =>
    simp only [marshal]
    rw [String.append_assoc]
    exact prepend_ne_empty _ _ (by decide)

/-! ## Split transforms (transform/string_split.go, transform/split_string.go) -/

/-- Configuration of `stringSplit` (separator validated non-empty by
`newStringSplit`). -/
structure StringSplitT where
  separator : String
  id : String

/-- The per-part loop shared by both split transforms: skip empty parts,
wrap the rest. -/
def stringSplitLoop : List (List Char) → List BMessage
  | [] => []
  | p :: rest =>
    if p.isEmpty then stringSplitLoop rest
    else (BMessage.New.SetData (some (String.mk p))) :: stringSplitLoop rest

/-- `stringSplit.Transform`. -/
def stringSplit.Transform (tf : StringSplitT) (msg : BMessage) :
    Except String (List BMessage) :=
  if msg.IsControl then .ok [msg]
  else .ok (stringSplitLoop (bytesSplit (msg.Data.getD "").data tf.separator.data))

/-- Configuration of `SplitString` (separator validated non-empty by
`newSplitString`). -/
structure SplitStringT where
  separator : String
  sourcePath : String
  targetPath : String
  id : String

/-- Modelled from the spec: the fresh message built by
`message.New().SetData([]byte("{}"))` followed by
`newMsg.SetPathValue(tf.targetPath, string(part))`.  `SetPathValue` is not
under src (only callers and tests are); per spec §4.4 `Set` strips the
root prefix, walks the remaining dotted segments into the payload (or
metadata) tree, and rejects any other path shape.  The payload here is the
literal bytes `"{}"`, i.e. the empty mapping. -/
def newTargetMessage (targetPath : String) (part : String) : Except String BMessage :=
  let p := goTrim targetPath
  if p = "$" then .ok { BMessage.New with data := some (marshal (.str part)) }
  else if p = "meta.$" then
    .ok { BMessage.New with data := some "\x7b\x7d", meta := some (marshal (.str part)) }
  else if strStartsWith p "$." then
    match Json.setIn (.obj []) (NewJSONPath (p.drop 2)) (.str part) with
    | .ok t => .ok { BMessage.New with data := some (marshal t) }
    | .error e => .error e
  else if strStartsWith p "meta.$." then
    match Json.setIn (.obj []) (NewJSONPath (p.drop 7)) (.str part) with
    | .ok t => .ok { BMessage.New with data := some "\x7b\x7d", meta := some (marshal t) }
    | .error e => .error e
  else .error ("invalid JSONPath: " ++ p)

/-- The per-part loop of `SplitString.Transform`: skip empty parts; wrap
the rest, writing through the target path when one is configured.  An
error aborts the whole call (Go returns `nil, err`). -/
def splitStringLoop (tf : SplitStringT) : List (List Char) → Except String (List BMessage)
  | [] => .ok []
  | p :: rest =>
    if p.isEmpty then splitStringLoop tf rest
    else
      match (if tf.targetPath ≠ "" then newTargetMessage tf.targetPath (String.mk p)
             else .ok (BMessage.New.SetData (some (String.mk p)))) with
      | .error e => .error ("transform " ++ tf.id ++ ": failed to set target: " ++ e)
      | .ok newMsg =>
        match splitStringLoop tf rest with
        | .error e => .error e
        | .ok out => .ok (newMsg :: out)

/-- `SplitString.Transform`.  `resolve` stands for the call
`msg.GetPathValue(tf.sourcePath)` (returning its bytes when the value
exists): `GetPathValue` is not under src, so the theorems below quantify
over every resolver. -/
def SplitString.Transform (tf : SplitStringT)
    (resolve : BMessage → String → Option String) (msg : BMessage) :
    Except String (List BMessage) :=
  if msg.IsControl then .ok [msg]
  else
    let fromSource : Option String :=
      if tf.sourcePath ≠ "" then resolve msg tf.sourcePath else none
    let inputData : Option String :=
      match fromSource with
      | some b => some b
      | none => msg.Data  -- if inputData == nil { inputData = msg.Data() }
    splitStringLoop tf (bytesSplit (inputData.getD "").data tf.separator.data)

/-! ## Lowercase transform (src/unnamed/part_000) -/

structure LowercaseT where
  id : String
  sourcePath : String
  targetPath : String

/-- `LowercaseStringTransform.Transform`.  `resolve` stands for
`msg.GetPathValue(tf.sourcePath).String()` (when the value exists) and
`setPath` for `msg.SetPathValue(tf.targetPath, lower)`; both methods are
not under src, so the theorems quantify over them. -/
def Lowercase.Transform (tf : LowercaseT)
    (resolve : BMessage → String → Option String)
    (setPath : BMessage → String → String → Except String BMessage)
    (msg : BMessage) : Except String (List BMessage) :=
  if msg.IsControl then .ok [msg]
  else
    let fromSource : Option String :=
      if tf.sourcePath ≠ "" then resolve msg tf.sourcePath else none
    let input : String :=
      match fromSource with
      | some b => if b = "" then (msg.Data.getD "") else b
      | none => msg.Data.getD ""
    let lower := input.toLower
    if tf.targetPath ≠ "" then
      match setPath msg tf.targetPath lower with
      | .error e => .error ("transform " ++ tf.id ++ ": failed to set target: " ++ e)
      | .ok m => .ok [m]
    else .ok [msg.SetData (some lower)]

/-! ## The pipeline applier (transform.Apply, src/unnamed/part_002) -/

/-- The inner loop of `Apply`: run one transform over every message of the
batch, concatenating outputs in order; the first error aborts. -/
def applyAll {α ε : Type} (t : α → Except ε (List α)) : List α → Except ε (List α)
  | [] => .ok []
  | m :: rest =>
    match t m with
    | .error e => .error e
    | .ok r =>
      match applyAll t rest with
      | .error e => .error e
      | .ok rs => .ok (r ++ rs)

/-- `transform.Apply`: stages in order, stopping early on an empty batch;
any error is returned immediately with no messages. -/
def transform.Apply {α ε : Type} (tfs : List (α → Except ε (List α))) (msgs : List α) :
    Except ε (List α) :=
  match tfs with
  | [] => .ok msgs
  | t :: rest =>
    if msgs.isEmpty then .ok msgs
    else
      match applyAll t msgs with
      | .error e => .error e
      | .ok next => transform.Apply rest next

/-! ## String utilities for the script compiler (config/sublang.go)

Indices are rune positions; Go's are byte positions.  The two agree on
ASCII script text, and no claim depends on non-ASCII scripts. -/

/-- `strings.Contains(s, string(c))` for a one-character needle. -/
def strContainsChar (s : String) (c : Char) : Bool := s.data.contains c

/-- `strings.Index(s, string(c))`. -/
def strIndexChar (s : String) (c : Char) : Option Nat := s.data.findIdx? (· = c)

/-- `strings.LastIndex(s, string(c))`. -/
def strLastIndexChar (s : String) (c : Char) : Option Nat :=
  match s.data.reverse.findIdx? (· = c) with
  | some i => some (s.data.length - 1 - i)
  | none => none

/-- `s[a:b]` (b exclusive). -/
def strSlice (s : String) (a b : Nat) : String :=
  String.mk ((s.data.take b).drop a)

/-- `strings.SplitN(s, string(c), 2)` when `s` contains `c`: the text
before and after the first occurrence. -/
def splitFirst (s : String) (c : Char) : String × String :=
  match s.data.findIdx? (· = c) with
  | some i => (String.mk (s.data.take i), String.mk (s.data.drop (i + 1)))
  | none => (s, "")

/-- `strings.Trim(s, "\"'")`: strip any mix of leading/trailing quote
characters. -/
def trimQuotes (s : String) : String :=
  let isQ : Char → Bool := fun c => c = '"' || c = '\''
  String.mk ((s.data.dropWhile isQ).reverse.dropWhile isQ |>.reverse)

/-- One unescaping step of `strconv.Unquote` inside a double-quoted
string.  The common escapes are interpreted; the exotic ones
(`\x`, `\u`, octal, `\a`, `\b`, `\f`, `\v`) are modelled as failures,
which no claim exercises. -/
def unescapeList : List Char → Option (List Char)
  | [] => some []
  | '\\' :: e :: rest =>
    let c? : Option Char :=
      if e = 'n' then some '\n'
      else if e = 't' then some '\t'
      else if e = 'r' then some '\r'
      else if e = '\\' then some '\\'
      else if e = '"' then some '"'
      else if e = '\'' then some '\'' else none
    match c?, unescapeList rest with
    | some c, some l => some (c :: l)
    | _, _ => none
  | '\\' :: [] => none
  | '"' :: _ => none  -- bare quote inside a double-quoted literal
  | '\n' :: _ => none
  | c :: rest => (unescapeList rest).map (c :: ·)

/-- `strconv.Unquote`: double-quoted strings are unescaped; a
single-quoted literal must hold exactly one (possibly escaped) rune. -/
def goUnquote (s : String) : Option String :=
  match s.data with
  | '"' :: rest =>
    match rest.reverse with
    | '"' :: mid => (unescapeList mid.reverse).map String.mk
    | _ => none
  | '\'' :: rest =>
    match rest.reverse with
    | '\'' :: mid =>
      match unescapeList mid.reverse with
      | some [c] => some (String.mk [c])
      | _ => none
    | _ => none
  | _ => none

/-! ## Descriptor settings (Go `map[string]interface{}` of scalar settings) -/

/-- A settings value: string, boolean, integer, or the `nil` read of a
missing key. -/
inductive SettingVal where
  | str (s : String)
  | bool (b : Bool)
  | int (n : Int)
  | null
deriving DecidableEq

/-- An operation descriptor / settings map: association list with Go map
read/write/delete semantics (unique keys by construction). -/
abbrev Settings := List (String × SettingVal)

def slookup : Settings → String → Option SettingVal
  | [], _ => none
  | (k, v) :: rest, key => if k = key then some v else slookup rest key

def sinsert : Settings → String → SettingVal → Settings
  | [], key, v => [(key, v)]
  | (k, w) :: rest, key, v =>
    if k = key then (k, v) :: rest else (k, w) :: sinsert rest key v

def serase : Settings → String → Settings
  | [], _ => []
  | (k, w) :: rest, key => if k = key then rest else (k, w) :: serase rest key

/-! ## Argument classification and settings construction (config/sublang.go) -/

/-- `isNestedFunction`. -/
def isNestedFunction (arg : String) : Bool :=
  strContainsChar arg '(' && strContainsChar arg ')'

/-- `isNamedArgument`. -/
def isNamedArgument (arg : String) : Bool := strContainsChar arg '='

/-- `isLegacyNamedArgument`. -/
def isLegacyNamedArgument (arg : String) : Bool := strContainsChar arg ':'

/-- `unquoteValue`. -/
def unquoteValue (value : String) : String :=
  if value.length > 1 ∧
      ((value.data.head? = some '"' ∧ value.data.getLast? = some '"') ∨
       (value.data.head? = some '\'' ∧ value.data.getLast? = some '\'')) then
    match goUnquote value with
    | some unq => unq
    | none => value
  else value

/-- `isBuiltinTransform`. -/
def isBuiltinTransform (funcName : String) : Bool :=
  ["split_string", "decompress_gzip", "send_stdout", "decode_base64",
   "lowercase_string", "delete"].contains funcName

/-- State threaded through `processArgument` (the two counters are Go
locals passed by pointer). -/
structure ArgState where
  settings : Settings
  nestedArgIndex : Nat
  positionalIndex : Nat

/-- `processNamedArgument`.  (`SplitN` always yields two parts here since
the argument contains `'='`, so the Go length check cannot fire.) -/
def processNamedArgument (arg : String) (st : ArgState) : ArgState :=
  let kv := splitFirst arg '='
  let key := goTrim kv.1
  let value := goTrim kv.2
  if isNestedFunction value then
    { st with settings := sinsert st.settings ("nested_arg_" ++ natRepr st.nestedArgIndex) (.str value),
              nestedArgIndex := st.nestedArgIndex + 1 }
  else
    { st with settings := sinsert st.settings key (.str (unquoteValue value)) }

/-- `processLegacyNamedArgument`. -/
def processLegacyNamedArgument (arg : String) (st : ArgState) : ArgState :=
  let kv := splitFirst arg ':'
  let key := goTrim kv.1
  let value := goTrim kv.2
  if value = "true" ∨ value = "false" then
    { st with settings := sinsert st.settings key (.bool (value = "true")) }
  else
    match atoi value with
    | some num => { st with settings := sinsert st.settings key (.int num) }
    | none => { st with settings := sinsert st.settings key (.str (trimQuotes value)) }

/-- `processNestedFunction`. -/
def processNestedFunction (arg : String) (st : ArgState) : ArgState :=
  { st with settings := sinsert st.settings ("nested_arg_" ++ natRepr st.nestedArgIndex) (.str arg),
            nestedArgIndex := st.nestedArgIndex + 1 }

/-- `processBuiltinPositionalArgument`. -/
def processBuiltinPositionalArgument (arg : String) (st : ArgState) :
    Except String ArgState :=
  if st.positionalIndex = 0 then
    if arg = "$" ∨ strStartsWith arg "$." then
      .ok { st with settings := sinsert st.settings "source" (.str arg),
                    positionalIndex := st.positionalIndex + 1 }
    else if isNestedFunction arg then
      .ok { st with settings := sinsert st.settings "nested_arg_0" (.str arg),
                    positionalIndex := st.positionalIndex + 1 }
    else
      .error ("first positional argument must be a JSON path (starting with $ or $.) or a function call (containing parentheses); got: " ++ arg)
  else
    .error ("only the first positional argument is allowed for built-in transforms; use named arguments for additional parameters (got: " ++ arg ++ ")")

/-- `processCustomPositionalArgument`. -/
def processCustomPositionalArgument (arg : String) (st : ArgState) : ArgState :=
  { st with settings := sinsert st.settings ("arg" ++ natRepr st.positionalIndex) (.str (unquoteValue arg)),
            positionalIndex := st.positionalIndex + 1 }

/-- `processArgument`: classification in priority order. -/
def processArgument (funcName arg : String) (st : ArgState) : Except String ArgState :=
  if isNamedArgument arg then .ok (processNamedArgument arg st)
  else if isLegacyNamedArgument arg then .ok (processLegacyNamedArgument arg st)
  else if isNestedFunction arg then .ok (processNestedFunction arg st)
  else if isBuiltinTransform funcName then processBuiltinPositionalArgument arg st
  else .ok (processCustomPositionalArgument arg st)

/-- The per-kind default-settings table.  (Go iterates a map literal; the
order is immaterial because only absent keys are inserted and the keys are
distinct, so the model fixes the literal's textual order.) -/
def defaultsFor (funcName : String) : Settings :=
  if funcName = "decompress_gzip" then [("id", .str "decompress_gzip")]
  else if funcName = "split_string" then [("separator", .str "\n"), ("id", .str "split_string")]
  else if funcName = "send_stdout" then [("id", .str "send_stdout")]
  else if funcName = "decode_base64" then [("id", .str "decode_base64"), ("type", .str "decode_base64")]
  else if funcName = "lowercase_string" then [("id", .str "lowercase_string")]
  else if funcName = "delete" then [("id", .str "delete")]
  else []

/-- `setDefaultSettings`. -/
def setDefaultSettings (funcName : String) (settings : Settings) : Settings :=
  (defaultsFor funcName).foldl
    (fun s kv => if (slookup s kv.1).isNone then sinsert s kv.1 kv.2 else s)
    settings

/-- `buildTransformSettings`. -/
def buildTransformSettings (funcName : String) (args : List String) :
    Except String Settings := do
  let st ← args.foldlM (fun st arg => processArgument funcName arg st) ⟨[], 0, 0⟩
  return setDefaultSettings funcName st.settings

/-! ## The argument tokenizers -/

/-- Scanner state of `Parser.parseArguments` (config/sublang.go). -/
structure ScanState where
  args : List String
  cur : List Char
  inQuotes : Bool
  quoteChar : Char
  depth : Int

/-- One character step of the sublang argument scanner. -/
def scanArgChar (st : ScanState) (c : Char) : ScanState :=
  if c = '"' ∨ c = '\'' then
    if ¬ st.inQuotes ∧ st.depth = 0 then
      { st with inQuotes := true, quoteChar := c, cur := st.cur ++ [c] }
    else if st.inQuotes ∧ c = st.quoteChar then
      { st with inQuotes := false, cur := st.cur ++ [c] }
    else { st with cur := st.cur ++ [c] }
  else if c = '(' then
    { st with depth := if st.inQuotes then st.depth else st.depth + 1, cur := st.cur ++ [c] }
  else if c = ')' then
    { st with depth := if st.inQuotes then st.depth else st.depth - 1, cur := st.cur ++ [c] }
  else if c = ',' then
    if ¬ st.inQuotes ∧ st.depth = 0 then
      let a := goTrim (String.mk st.cur)
      { st with args := if a = "" then st.args else st.args ++ [a], cur := [] }
    else { st with cur := st.cur ++ [c] }
  else { st with cur := st.cur ++ [c] }

/-- `Parser.parseArguments` (config/sublang.go): tokenize an argument-list
string.  Note that the scanner's final state is discarded: the function
returns `ok` even when a quote is still open or the depth counter is
non-zero. -/
def parseArgumentsSub (argsStr : String) : Except String (List String) :=
  if goTrim argsStr = "" then .ok []
  else
    let st := argsStr.data.foldl scanArgChar ⟨[], [], false, ' ', 0⟩
    if st.cur.length > 0 then
      let a := goTrim (String.mk st.cur)
      .ok (if a = "" then st.args else st.args ++ [a])
    else .ok st.args

/-- Scanner state of `SUBParser.parseArguments` (config/dsl.go): no
parenthesis tracking, and commas outside quotes always split (empty
arguments included). -/
structure DslScanState where
  args : List String
  cur : List Char
  inQuotes : Bool
  quoteChar : Char

/-- One character step of the dsl argument scanner. -/
def dslScanArgChar (st : DslScanState) (c : Char) : DslScanState :=
  if c = '"' ∨ c = '\'' then
    if ¬ st.inQuotes then
      { st with inQuotes := true, quoteChar := c, cur := st.cur ++ [c] }
    else if c = st.quoteChar then
      { st with inQuotes := false, cur := st.cur ++ [c] }
    else { st with cur := st.cur ++ [c] }
  else if c = ',' then
    if ¬ st.inQuotes then
      { st with args := st.args ++ [goTrim (String.mk st.cur)], cur := [] }
    else { st with cur := st.cur ++ [c] }
  else { st with cur := st.cur ++ [c] }

/-- `SUBParser.parseArguments` (config/dsl.go), including the final
unquoting pass.  Like the sublang scanner it never returns an error. -/
def parseArgumentsDsl (argsStr : String) : Except String (List String) :=
  if goTrim argsStr = "" then .ok []
  else
    let st := argsStr.data.foldl dslScanArgChar ⟨[], [], false, ' '⟩
    let args := if st.cur.length > 0 then st.args ++ [goTrim (String.mk st.cur)] else st.args
    .ok (args.map fun arg =>
      if arg.length > 1 ∧
          ((arg.data.head? = some '"' ∧ arg.data.getLast? = some '"') ∨
           (arg.data.head? = some '\'' ∧ arg.data.getLast? = some '\'')) then
        match goUnquote arg with
        | some unq => unq
        | none => arg
      else arg)

/-! ## The line classifier and call resolver (config/sublang.go)

The resolver is recursive through nested calls; the recursion is bounded
by a fuel counter (every nesting level strictly shrinks the text, so any
fuel above the script length is sufficient).  The parameter `ord` renders
Go's unspecified map-iteration order over the settings map in the
nested-call loop: a run of the Go compiler corresponds to some `ord` that
permutes the entries.  (The other two map iterations — the default-settings
table and the final copy into the descriptor map — only build maps keyed by
distinct keys, where iteration order is unobservable, so the model fixes
them.) -/

/-- `isDirectAssignment`. -/
def isDirectAssignment (line : String) : Bool :=
  strContainsChar line '=' && !strContainsChar line '('

/-- `isAssignmentWithFunction`. -/
def isAssignmentWithFunction (line : String) : Bool :=
  match strIndexChar line '=', strIndexChar line '(' with
  | some eqIdx, some openParen => openParen > eqIdx
  | _, _ => false

/-- `isFunctionCall`. -/
def isFunctionCall (line : String) : Bool :=
  strContainsChar line '(' && strContainsChar line ')'

/-- `parseDirectAssignment`. -/
def parseDirectAssignment (line : String) : Except String (List Settings) :=
  let parts := splitFirst line '='
  let target := goTrim parts.1
  let source := goTrim parts.2
  if target = "" ∨ source = "" then .error ("invalid assignment: " ++ line)
  else
    .ok [[("id", .str "assign"), ("type", .str "assign"),
          ("source", .str source), ("target", .str target)]]

/-- One step of the nested-call loop of `parseFunctionCallWithTarget`,
abstracted over the recursive compile call `recurse`: a `nested_arg_*` key
holding a string is compiled, deleted, and `source` redirected to the
intermediate field; anything else is skipped. -/
def collectStep (recurse : String → Except String (List Settings))
    (st : List Settings × Settings) (kv : String × SettingVal) :
    Except String (List Settings × Settings) :=
  if strStartsWith kv.1 "nested_arg_" then
    match kv.2 with
    | .str nestedFunc =>
      match recurse nestedFunc with
      | .error e => .error ("error parsing nested function " ++ nestedFunc ++ ": " ++ e)
      | .ok nested =>
        .ok (st.1 ++ nested, sinsert (serase st.2 kv.1) "source" (.str "$.nested_output"))
    | _ => .ok st
  else .ok st

/-- The settings entries the nested-call loop acts on. -/
def nestedEntry (kv : String × SettingVal) : Bool :=
  strStartsWith kv.1 "nested_arg_" &&
    (match kv.2 with | .str _ => true | _ => false)

/-- The four entry points of the recursive descent, packed into one task
type so that the recursion is structural in the fuel counter (and hence
computes definitionally): a whole script, one classified line, an
assignment-with-call line, and a call with target override. -/
inductive ParseTask where
  | script (s : String)
  | line (l : String)
  | assignWithCall (l : String)
  | call (line target : String)

/-- The recursive core of the sublang compiler: `Parser.Parse`,
`Parser.parseLine`, `Parser.parseAssignmentWithFunction` and
`Parser.parseFunctionCallWithTarget`, one task each.  Every recursive call
uses the same decremented fuel, so results are independent of list
positions once the fuel exceeds the nesting depth. -/
def parseGo (ord : Settings → Settings) : Nat → ParseTask → Except String (List Settings)
  | 0, _ => .error "recursion limit"
  | fuel + 1, task =>
    match task with
    | .script sublang =>
      -- Parser.Parse: split into lines, skip blanks and comments,
      -- concatenate each line's descriptors; first error aborts
      (strSplitChar sublang '\n').foldlM
        (fun acc line =>
          let l := goTrim line
          if l = "" ∨ strStartsWith l "#" then .ok acc
          else
            match parseGo ord fuel (.line l) with
            | .error e => .error e
            | .ok ts => .ok (acc ++ ts))
        []
    | .line line =>
      -- Parser.parseLine: classify and dispatch
      if isDirectAssignment line then parseDirectAssignment line
      else if isAssignmentWithFunction line then parseGo ord fuel (.assignWithCall line)
      else if isFunctionCall line then parseGo ord fuel (.call line "")
      else .error ("invalid SUB line format: " ++ line)
    | .assignWithCall line =>
      -- Parser.parseAssignmentWithFunction ('=' present by the guard)
      let eqIdx := (strIndexChar line '=').getD 0
      let target := goTrim (strSlice line 0 eqIdx)
      let funcCall := goTrim (strSlice line (eqIdx + 1) line.data.length)
      match parseGo ord fuel (.call funcCall target) with
      | .error e => .error ("error parsing assignment with function: " ++ e)
      | .ok transforms =>
        -- special handling for delete in assignment context
        .ok (transforms.map fun t =>
          if slookup t "type" = some (.str "delete") then sinsert t "target" (.str target) else t)
    | .call line target =>
      -- Parser.parseFunctionCallWithTarget
      match strIndexChar line '(', strLastIndexChar line ')' with
      | some openParen, some closeParen =>
        if closeParen ≤ openParen then .error ("invalid function call syntax: " ++ line)
        else
          let funcName := goTrim (strSlice line 0 openParen)
          let argsStr := strSlice line (openParen + 1) closeParen
          match parseArgumentsSub argsStr with
          | .error e => .error ("error parsing arguments: " ++ e)
          | .ok args =>
            match buildTransformSettings funcName args with
            | .error e => .error ("error parsing settings: " ++ e)
            | .ok settings =>
              -- nested-call loop over the settings map; the iteration
              -- snapshot order is `ord settings`
              match
                (ord settings).foldlM
                  (collectStep (fun v => parseGo ord fuel (.script v)))
                  ([], settings) with
              | .error e => .error e
              | .ok (nestedTransforms, settings2) =>
                let transform : Settings :=
                  [("id", (slookup settings2 "id").getD .null), ("type", .str funcName)]
                let transform :=
                  if target ≠ "" then sinsert transform "target" (.str target) else transform
                -- add all settings except id (map range over distinct keys,
                -- iteration order unobservable in the resulting map)
                let transform :=
                  settings2.foldl (fun t kv => if kv.1 ≠ "id" then sinsert t kv.1 kv.2 else t)
                    transform
                .ok (nestedTransforms ++ [transform])
      | _, _ => .error ("invalid function call syntax: " ++ line)

/-- `Parser.Parse`. -/
def subParse (ord : Settings → Settings) (fuel : Nat) (sublang : String) :
    Except String (List Settings) :=
  parseGo ord fuel (.script sublang)

/-- `Parser.parseFunctionCallWithTarget`. -/
def parseFunctionCallWithTarget (ord : Settings → Settings) (fuel : Nat)
    (line target : String) : Except String (List Settings) :=
  parseGo ord fuel (.call line target)

/-! # Theorems -/

/-! ## C1: no partial success in Apply -/

theorem applyAll_first_error {α ε : Type} (t : α → Except ε (List α))
    (pre post : List α) (m : α) (e : ε)
    (hpre : ∀ m' ∈ pre, ∃ r, t m' = .ok r) (hm : t m = .error e) :
    applyAll t (pre ++ m :: post) = .error e := by
  induction pre with
  | nil => simp [applyAll, hm]
  | cons a rest ih =>
    obtain ⟨r, hr⟩ := hpre a (by simp)
    have h2 := ih (fun m' h => hpre m' (by simp [h]))
    simp [applyAll, hr, h2]

/-- C1.  If any single transform invocation in `Apply` returns an error for
any one message of the batch (the invocations before it on that batch
having succeeded, so it is the first failing one), `Apply` returns exactly
that error and — the error constructor carrying no messages, as Go returns
a nil slice — zero result messages: outputs of earlier stages and of other
records are discarded. -/
theorem apply_aborts_batch_on_error {α ε : Type}
    (tfs₁ tfs₂ : List (α → Except ε (List α))) (t : α → Except ε (List α))
    (msgs pre post : List α) (m : α) (e : ε)
    (hfirst : transform.Apply tfs₁ msgs = .ok (pre ++ m :: post))
    (hpre : ∀ m' ∈ pre, ∃ r, t m' = .ok r)
    (hm : t m = .error e) :
    transform.Apply (tfs₁ ++ t :: tfs₂) msgs = .error e := by
  induction tfs₁ generalizing msgs with
  | nil =>
    rw [transform.Apply] at hfirst
    cases hfirst
    rw [List.nil_append, transform.Apply]
    have hne : (pre ++ m :: post).isEmpty = false := by
      cases pre <;> simp
    rw [hne]
    simp only [Bool.false_eq_true, if_false]
    rw [applyAll_first_error t pre post m e hpre hm]
  | cons t₁ rest ih =>
    rw [transform.Apply] at hfirst
    by_cases hempty : msgs.isEmpty
    · exfalso
      rw [if_pos hempty] at hfirst
      injection hfirst with heq
      rw [heq] at hempty
      cases pre <;> simp at hempty
    · rw [if_neg hempty] at hfirst
      rw [List.cons_append, transform.Apply, if_neg hempty]
      cases hall : applyAll t₁ msgs with
      | error e' => rw [hall] at hfirst; cases hfirst
      | ok next =>
        rw [hall] at hfirst
        exact ih next hfirst

/-- C1 witness: a 3-stage pipeline whose middle stage fails on the third
record of a 5-record batch returns the error and no records. -/
theorem apply_aborts_batch_on_error_witness :
    transform.Apply
      [fun n => .ok [n], fun n => if n = 3 then .error "boom" else .ok [n],
       fun n => .ok [n]]
      ([1, 2, 3, 4, 5] : List Nat) = .error "boom" := by
  have h := apply_aborts_batch_on_error
    (α := Nat) (ε := String)
    [fun n => .ok [n]] [fun n => .ok [n]]
    (fun n => if n = 3 then .error "boom" else .ok [n])
    [1, 2, 3, 4, 5] [1, 2] [4, 5] 3 "boom"
    (by rfl)
    (by intro m' hm'; fin_cases hm' <;> exact ⟨_, rfl⟩)
    (by rfl)
  simpa using h

/-! ## C7: invalid path shapes fail -/

/-- C7.  A path whose trimmed form does not begin with the payload-root or
metadata-root token is rejected by all three operations: `GetValue`
reports a non-existent value (its `exists` field is false, hence
`Exists()` is false), and `SetValue` and `DeleteValue` return the
invalid-path error; none returns a success result. -/
theorem invalid_path_always_fails (m : Message) (p : String) (v : Json)
    (h : isValidJSONPath (goTrim p) = false) :
    (m.GetValue p).found = false ∧
    (m.GetValue p).Exists = false ∧
    m.SetValue p v = .error ("invalid JSONPath: " ++ goTrim p) ∧
    m.DeleteValue p = .error ("invalid JSONPath: " ++ goTrim p) := by
  refine ⟨?_, ?_, ?_, ?_⟩
  · simp [Message.GetValue, h]
  · simp [Message.GetValue, Value.Exists, h]
  · simp [Message.SetValue, h]
  · simp [Message.DeleteValue, h]

/-- C7 witness at the invalid path "foo". -/
theorem invalid_path_always_fails_witness :
    isValidJSONPath (goTrim "foo") = false ∧
    ((⟨.empty, .empty, false⟩ : Message).GetValue "foo").found = false ∧
    ((⟨.empty, .empty, false⟩ : Message).GetValue "foo").Exists = false ∧
    (⟨.empty, .empty, false⟩ : Message).SetValue "foo" (.str "x") =
      .error ("invalid JSONPath: " ++ goTrim "foo") ∧
    (⟨.empty, .empty, false⟩ : Message).DeleteValue "foo" =
      .error ("invalid JSONPath: " ++ goTrim "foo") := by
  have h : isValidJSONPath (goTrim "foo") = false := by decide
  have hc := invalid_path_always_fails ⟨.empty, .empty, false⟩ "foo" (.str "x") h
  exact ⟨h, hc.1, hc.2.1, hc.2.2.1, hc.2.2.2⟩

/-! ## C9: the control-record invariant -/

/-- C9.  Setting the control flag (`AsControl`) clears payload and
metadata; on a control message `Data` and `Metadata` return nothing,
`SetData` and `SetMetadata` leave the message unchanged, and the
transforms embedded here (`SplitString`, `stringSplit`,
`LowercaseString`) return exactly the input message with no error,
skipping all field-level logic — for every source resolver and target
writer. -/
theorem control_messages_pass_through (m : BMessage) (d : Option String)
    (tfS : SplitStringT) (tfSS : StringSplitT) (tfL : LowercaseT)
    (resolve : BMessage → String → Option String)
    (setPath : BMessage → String → String → Except String BMessage)
    (h : m.IsControl = true) :
    (m.AsControl.data = none ∧ m.AsControl.meta = none ∧ m.AsControl.ctrl = true) ∧
    m.Data = none ∧ m.Metadata = none ∧
    m.SetData d = m ∧ m.SetMetadata d = m ∧
    SplitString.Transform tfS resolve m = .ok [m] ∧
    stringSplit.Transform tfSS m = .ok [m] ∧
    Lowercase.Transform tfL resolve setPath m = .ok [m] := by
  have hc : m.ctrl = true := h
  refine ⟨⟨rfl, rfl, rfl⟩, ?_, ?_, ?_, ?_, ?_, ?_, ?_⟩
  · simp [BMessage.Data, hc]
  · simp [BMessage.Metadata, hc]
  · simp [BMessage.SetData, hc]
  · simp [BMessage.SetMetadata, hc]
  · simp [SplitString.Transform, h]
  · simp [stringSplit.Transform, h]
  · simp [Lowercase.Transform, h]

/-- C9 witness: a concrete control message. -/
theorem control_messages_pass_through_witness :
    ((⟨none, none, true⟩ : BMessage).IsControl = true) ∧
    ((⟨none, none, true⟩ : BMessage).Data = none ∧
     (⟨none, none, true⟩ : BMessage).SetData (some "x") = ⟨none, none, true⟩ ∧
     stringSplit.Transform ⟨"|", "s"⟩ ⟨none, none, true⟩ = .ok [⟨none, none, true⟩]) := by
  have h := control_messages_pass_through ⟨none, none, true⟩ (some "x")
    ⟨"|", "", "", "s"⟩ ⟨"|", "s"⟩ ⟨"l", "", ""⟩ (fun _ _ => none) (fun m _ _ => .ok m) rfl
  exact ⟨rfl, h.2.1, h.2.2.2.1, h.2.2.2.2.2.2.1⟩

/-! ## C8: the argument tokenizer never hard-fails -/

/-- C8 counterexample.  The claim says an argument-list string with an
unterminated quote (or non-zero final depth) makes the tokenizer return a
hard error; in fact both tokenizers discard the final scanner state and
return a token list: after scanning `"abc` the quote is still open (and
after `((` the depth is 2) yet both return `ok`. -/
theorem tokenizer_accepts_unterminated_quote :
    ((("\"abc" : String)).data.foldl scanArgChar ⟨[], [], false, ' ', 0⟩).inQuotes = true ∧
    parseArgumentsSub "\"abc" = .ok ["\"abc"] ∧
    ((("((" : String)).data.foldl scanArgChar ⟨[], [], false, ' ', 0⟩).depth = 2 ∧
    parseArgumentsSub "((" = .ok ["(("] ∧
    parseArgumentsDsl "\"abc" = .ok ["\"abc"] := by
  exact ⟨by decide, rfl, by decide, rfl, rfl⟩

/-- C8 amended.  The tokenizers are total: for every argument-list string
— unterminated quotes and unbalanced parentheses included — both
`parseArguments` implementations return a token list, never an error; the
final scanner state is discarded. -/
theorem tokenizer_never_errors (argsStr : String) :
    (parseArgumentsSub argsStr).isOk = true ∧ (parseArgumentsDsl argsStr).isOk = true := by
  constructor
  · rw [parseArgumentsSub]
    split
    · rfl
    · dsimp only
      split <;> rfl
  · rw [parseArgumentsDsl]
    split
    · rfl
    · rfl

/-! ## C10: split transforms emit only non-empty segments -/

/-- `sep` repeated `k` times. -/
def repSep : Nat → List Char → List Char
  | 0, _ => []
  | k + 1, sep => sep ++ repSep k sep

theorem subIndex_self_append (sep rest : List Char) :
    subIndex (sep ++ rest) sep = some 0 := by
  rw [subIndex.eq_def]
  rw [if_pos (List.isPrefixOf_iff_prefix.mpr (List.prefix_append sep rest))]

theorem bytesSplit_repSep (sep : List Char) (hsep : sep ≠ []) (k : Nat) :
    bytesSplit (repSep k sep) sep = List.replicate (k + 1) [] := by
  induction k with
  | zero =>
    rw [repSep, bytesSplit]
    rw [dif_neg hsep]
    have h0 : subIndex [] sep = none := by
      rw [subIndex.eq_def]
      rw [if_neg]
      intro hp
      exact hsep (by simpa using (List.isPrefixOf_iff_prefix.mp hp).length_le)
    split
    · rfl
    · rename_i i h; rw [h0] at h; cases h
  | succ k ih =>
    rw [repSep, bytesSplit, dif_neg hsep]
    have h0 := subIndex_self_append sep (repSep k sep)
    split
    · rename_i h; rw [h0] at h; cases h
    · rename_i i h
      rw [h0] at h
      cases h
      rw [Nat.zero_add, List.take_zero, List.drop_left]
      rw [ih]
      rfl

theorem stringSplitLoop_nonempty (parts : List (List Char)) :
    ∀ o ∈ stringSplitLoop parts, ∃ s, o.data = some s ∧ s.data ≠ [] := by
  induction parts with
  | nil => intro o ho; simp [stringSplitLoop] at ho
  | cons p rest ih =>
    intro o ho
    rw [stringSplitLoop] at ho
    by_cases hp : p.isEmpty
    · rw [if_pos hp] at ho; exact ih o ho
    · rw [if_neg hp] at ho
      rcases List.mem_cons.mp ho with h | h
      · subst h
        refine ⟨String.mk p, rfl, ?_⟩
        simpa [List.isEmpty_iff] using hp
      · exact ih o h

theorem stringSplitLoop_all_empty (n : Nat) :
    stringSplitLoop (List.replicate n []) = [] := by
  induction n with
  | zero => rfl
  | succ n ih => rw [List.replicate_succ, stringSplitLoop]; simpa using ih

theorem newTargetMessage_nonempty (tp part : String) (m' : BMessage)
    (h : newTargetMessage tp part = .ok m') :
    ∃ s, m'.data = some s ∧ s.data ≠ [] := by
  rw [newTargetMessage] at h
  split at h
  · cases h
    exact ⟨_, rfl, fun hc => marshal_ne_empty _ ((str_eq_empty_iff _).mpr hc)⟩
  · split at h
    · cases h; exact ⟨_, rfl, by decide⟩
    · split at h
      · split at h
        · cases h
          exact ⟨_, rfl, fun hc => marshal_ne_empty _ ((str_eq_empty_iff _).mpr hc)⟩
        · cases h
      · split at h
        · split at h
          · cases h; exact ⟨_, rfl, by decide⟩
          · cases h
        · cases h

theorem splitStringLoop_nonempty (tf : SplitStringT) (parts : List (List Char)) :
    ∀ out, splitStringLoop tf parts = .ok out →
      ∀ o ∈ out, ∃ s, o.data = some s ∧ s.data ≠ [] := by
  induction parts with
  | nil => intro out hout o ho; cases hout; simp at ho
  | cons p rest ih =>
    intro out hout o ho
    rw [splitStringLoop] at hout
    by_cases hp : p.isEmpty
    · rw [if_pos hp] at hout; exact ih out hout o ho
    · rw [if_neg hp] at hout
      split at hout
      · cases hout
      · rename_i newMsg hnew
        split at hout
        · cases hout
        · rename_i out' hrest
          cases hout
          rcases List.mem_cons.mp ho with h | h
          · subst h
            split at hnew
            · exact newTargetMessage_nonempty _ _ _ hnew
            · cases hnew
              refine ⟨String.mk p, rfl, ?_⟩
              simpa [List.isEmpty_iff] using hp
          · exact ih out' hrest o h

theorem splitStringLoop_all_empty (tf : SplitStringT) (n : Nat) :
    splitStringLoop tf (List.replicate n []) = .ok [] := by
  induction n with
  | zero => rfl
  | succ n ih => rw [List.replicate_succ, splitStringLoop]; simpa using ih

/-- C10.  Both split transforms emit only messages with non-empty data:
empty segments produced by leading, trailing or consecutive separators are
skipped, and a (non-control) input consisting solely of separators yields
zero output messages.  Stated for every source resolver of `SplitString`
(its `GetPathValue` helper is not under src) and for the non-empty
separators enforced by the constructors. -/
theorem split_emits_only_nonempty_data
    (tfS : SplitStringT) (tfSS : StringSplitT)
    (resolve : BMessage → String → Option String)
    (msg : BMessage) (k : Nat)
    (hctrl : msg.IsControl = false)
    (hsepS : tfS.separator ≠ "") (hsepSS : tfSS.separator ≠ "") :
    (∀ out, stringSplit.Transform tfSS msg = .ok out →
       ∀ o ∈ out, ∃ s, o.data = some s ∧ s.data ≠ []) ∧
    (∀ out, SplitString.Transform tfS resolve msg = .ok out →
       ∀ o ∈ out, ∃ s, o.data = some s ∧ s.data ≠ []) ∧
    ((msg.Data.getD "").data = repSep k tfSS.separator.data →
       stringSplit.Transform tfSS msg = .ok []) ∧
    (((match (if tfS.sourcePath ≠ "" then resolve msg tfS.sourcePath else none) with
        | some b => some b
        | none => msg.Data).getD "").data = repSep k tfS.separator.data →
       SplitString.Transform tfS resolve msg = .ok []) := by
  have hSSdata : tfSS.separator.data ≠ [] :=
    fun hc => hsepSS ((str_eq_empty_iff _).mpr hc)
  have hSdata : tfS.separator.data ≠ [] :=
    fun hc => hsepS ((str_eq_empty_iff _).mpr hc)
  refine ⟨?_, ?_, ?_, ?_⟩
  · intro out hout o ho
    rw [stringSplit.Transform, if_neg (by simp [hctrl])] at hout
    cases hout
    exact stringSplitLoop_nonempty _ o ho
  · intro out hout o ho
    rw [SplitString.Transform, if_neg (by simp [hctrl])] at hout
    exact splitStringLoop_nonempty _ _ out hout o ho
  · intro hin
    rw [stringSplit.Transform, if_neg (by simp [hctrl])]
    rw [hin, bytesSplit_repSep _ hSSdata, stringSplitLoop_all_empty]
  · intro hin
    rw [SplitString.Transform, if_neg (by simp [hctrl])]
    dsimp only
    rw [hin, bytesSplit_repSep _ hSdata, splitStringLoop_all_empty]

/-- C10 witness: splitting `"|||"` on `"|"` yields zero messages, and
splitting `"a|b"` yields only non-empty messages. -/
theorem split_emits_only_nonempty_data_witness :
    stringSplit.Transform ⟨"|", "s"⟩ ⟨some "|||", none, false⟩ = .ok [] ∧
    (∀ out, stringSplit.Transform ⟨"|", "s"⟩ ⟨some "a|b", none, false⟩ = .ok out →
       ∀ o ∈ out, ∃ s, o.data = some s ∧ s.data ≠ []) := by
  constructor
  · exact (split_emits_only_nonempty_data ⟨"|", "", "", "s"⟩ ⟨"|", "s"⟩
      (fun _ _ => none) ⟨some "|||", none, false⟩ 3 rfl (by decide) (by decide)).2.2.1
      (by decide)
  · exact (split_emits_only_nonempty_data ⟨"|", "", "", "s"⟩ ⟨"|", "s"⟩
      (fun _ _ => none) ⟨some "a|b", none, false⟩ 0 rfl (by decide) (by decide)).1

/-! ## C4: builtin positional-argument restrictions -/

/-- An argument classified positional by `processArgument`: not named, not
legacy-named, not a nested call.  (In particular a first *positional*
argument can never be a nested call — such arguments are classified
earlier — so the claim's "payload path or nested call" allowance reduces
to the payload-path test for positionals.) -/
def isPositionalArg (arg : String) : Bool :=
  !isNamedArgument arg && !isLegacyNamedArgument arg && !isNestedFunction arg

theorem processArgument_nonpositional (f arg : String) (st : ArgState)
    (h : isPositionalArg arg = false) :
    ∃ st', processArgument f arg st = .ok st' ∧
      st'.positionalIndex = st.positionalIndex := by
  rw [processArgument]
  by_cases h1 : isNamedArgument arg
  · rw [if_pos h1]
    refine ⟨_, rfl, ?_⟩
    rw [processNamedArgument]
    split <;> rfl
  · rw [if_neg h1]
    by_cases h2 : isLegacyNamedArgument arg
    · rw [if_pos h2]
      refine ⟨_, rfl, ?_⟩
      rw [processLegacyNamedArgument]
      split
      · rfl
      · split <;> rfl
    · rw [if_neg h2]
      by_cases h3 : isNestedFunction arg
      · rw [if_pos h3]
        exact ⟨_, rfl, rfl⟩
      · exfalso
        rw [isPositionalArg] at h
        simp [h1, h2, h3] at h

theorem processArgument_positional_classified (f arg : String) (st : ArgState)
    (hf : isBuiltinTransform f = true) (hpos : isPositionalArg arg = true) :
    processArgument f arg st = processBuiltinPositionalArgument arg st := by
  rw [isPositionalArg] at hpos
  simp only [Bool.and_eq_true, Bool.not_eq_true'] at hpos
  rw [processArgument, if_neg (by simp [hpos.1.1]), if_neg (by simp [hpos.1.2]),
      if_neg (by simp [hpos.2]), if_pos hf]

theorem buildSettings_fold_error (f : String) (hf : isBuiltinTransform f = true) :
    ∀ (args : List String) (st : ArgState),
      ((st.positionalIndex ≠ 0 ∧ args.filter isPositionalArg ≠ []) ∨
       (st.positionalIndex = 0 ∧
         (2 ≤ (args.filter isPositionalArg).length ∨
          (∃ p₀, (args.filter isPositionalArg).head? = some p₀ ∧
            p₀ ≠ "$" ∧ strStartsWith p₀ "$." = false)))) →
      ∃ e, args.foldlM (fun st arg => processArgument f arg st) st = .error e := by
  intro args
  induction args with
  | nil =>
    intro st h
    rcases h with ⟨_, hne⟩ | ⟨_, h2 | ⟨p₀, hp, _⟩⟩
    · simp at hne
    · simp at h2
    · simp at hp
  | cons a rest ih =>
    intro st h
    rw [List.foldlM_cons]
    by_cases hpos : isPositionalArg a
    · rw [processArgument_positional_classified f a st hf hpos]
      by_cases hidx : st.positionalIndex = 0
      · rcases h with ⟨hne, _⟩ | ⟨_, hbad⟩
        · exact absurd hidx hne
        · rw [List.filter_cons_of_pos hpos] at hbad
          by_cases hok : a = "$" ∨ strStartsWith a "$." = true
          · have hone : 1 ≤ (rest.filter isPositionalArg).length := by
              rcases hbad with h2 | ⟨p₀, hp, hne', hsw⟩
              · simpa using h2
              · exfalso
                simp only [List.head?_cons, Option.some.injEq] at hp
                subst hp
                rcases hok with h' | h'
                · exact hne' h'
                · rw [h'] at hsw; cases hsw
            have hstep : ∃ st', processBuiltinPositionalArgument a st = .ok st' ∧
                st'.positionalIndex = 1 := by
              rw [processBuiltinPositionalArgument, if_pos hidx]
              rcases hok with h' | h'
              · rw [if_pos (Or.inl h')]
                exact ⟨_, rfl, by simp [hidx]⟩
              · rw [if_pos (Or.inr h')]
                exact ⟨_, rfl, by simp [hidx]⟩
            obtain ⟨st', hst', hidx'⟩ := hstep
            rw [hst']
            have : rest.filter isPositionalArg ≠ [] := by
              intro hc; rw [hc] at hone; simp at hone
            exact ih st' (Or.inl ⟨by rw [hidx']; exact one_ne_zero, this⟩)
          · push_neg at hok
            rw [processBuiltinPositionalArgument, if_pos hidx]
            rw [if_neg (by push_neg; exact hok)]
            have hnn : isNestedFunction a = false := by
              rw [isPositionalArg] at hpos
              simp only [Bool.and_eq_true, Bool.not_eq_true'] at hpos
              exact hpos.2
            rw [if_neg (by simp [hnn])]
            exact ⟨_, rfl⟩
      · rw [processBuiltinPositionalArgument, if_neg hidx]
        exact ⟨_, rfl⟩
    · obtain ⟨st', hok, hkeep⟩ :=
        processArgument_nonpositional f a st (by simpa using hpos)
      rw [hok]
      have hfil : (a :: rest).filter isPositionalArg = rest.filter isPositionalArg :=
        List.filter_cons_of_neg (by simpa using hpos)
      rw [hfil] at h
      exact ih st' (by rw [hkeep]; exact h)

/-- C4.  For every builtin kind, a call carrying two or more positional
arguments, or whose first positional argument is not a payload path
(beginning with the payload-root token; a nested call would have been
classified before reaching the positional rule), fails settings
construction with a syntax error, and compilation of such a line through
`parseFunctionCallWithTarget` fails: no descriptor list is produced. -/
theorem builtin_positional_restrictions
    (f : String) (args : List String) (hf : isBuiltinTransform f = true)
    (hbad : 2 ≤ (args.filter isPositionalArg).length ∨
            (∃ p₀, (args.filter isPositionalArg).head? = some p₀ ∧
                   p₀ ≠ "$" ∧ strStartsWith p₀ "$." = false)) :
    (∃ e, buildTransformSettings f args = .error e) ∧
    (∀ (ord : Settings → Settings) (fuel : Nat) (line target : String)
       (openP closeP : Nat),
       strIndexChar line '(' = some openP →
       strLastIndexChar line ')' = some closeP →
       openP < closeP →
       goTrim (strSlice line 0 openP) = f →
       parseArgumentsSub (strSlice line (openP + 1) closeP) = .ok args →
       ∃ e, parseFunctionCallWithTarget ord (fuel + 1) line target = .error e) := by
  have hfold := buildSettings_fold_error f hf args ⟨[], 0, 0⟩ (Or.inr ⟨rfl, hbad⟩)
  obtain ⟨e, he⟩ := hfold
  have hbuild : buildTransformSettings f args = .error e := by
    rw [buildTransformSettings]
    rw [show (⟨[], 0, 0⟩ : ArgState) = { settings := [], nestedArgIndex := 0, positionalIndex := 0 } from rfl] at he
    rw [he]
    rfl
  refine ⟨⟨e, hbuild⟩, ?_⟩
  intro ord fuel line target openP closeP hopen hclose hlt hname hargs
  rw [parseFunctionCallWithTarget, parseGo]
  dsimp only
  rw [hopen, hclose]
  dsimp only
  rw [if_neg (by omega), hname, hargs]
  dsimp only
  rw [hbuild]
  exact ⟨_, rfl⟩

/-- C4 witness: `split_string($.a, $.b)` (two positionals) and
`split_string(foo)` (invalid first positional) both fail line
compilation. -/
theorem builtin_positional_restrictions_witness :
    (∃ e, parseFunctionCallWithTarget id 100 "split_string($.a, $.b)" "" = .error e) ∧
    (∃ e, parseFunctionCallWithTarget id 100 "split_string(foo)" "" = .error e) := by
  constructor
  · exact (builtin_positional_restrictions "split_string" ["$.a", "$.b"] (by decide)
      (Or.inl (by decide))).2 id 99 "split_string($.a, $.b)" "" 12 21
      (by decide) (by decide) (by omega) (by decide) rfl
  · exact (builtin_positional_restrictions "split_string" ["foo"] (by decide)
      (Or.inr ⟨"foo", by decide, by decide, by decide⟩)).2 id 99 "split_string(foo)" "" 12 16
      (by decide) (by decide) (by omega) (by decide) rfl

/-! ## C3: nested-call flattening -/

/-- C3 counterexample.  Compiling `lowercase_string(decode_base64($.x))`
does produce exactly two descriptors, the first with source `$.x` — but
the first descriptor carries no target field at all: the compiler only
rewrites the outer call's `source` to the intermediate field, it never
makes the inner descriptor target it, refuting the claimed "synthetic
target field". -/
theorem nested_call_inner_has_no_target :
    subParse id 20 "lowercase_string(decode_base64($.x))" =
      .ok [[("id", .str "decode_base64"), ("type", .str "decode_base64"),
            ("source", .str "$.x")],
           [("id", .str "lowercase_string"), ("type", .str "lowercase_string"),
            ("source", .str "$.nested_output")]] ∧
    slookup [("id", SettingVal.str "decode_base64"), ("type", .str "decode_base64"),
             ("source", .str "$.x")] "target" = none := by
  exact ⟨rfl, rfl⟩

/-- C3 amended.  Compiling `outer(inner(x))` (instantiated with builtin
kinds: `lowercase_string(decode_base64($.x))`) produces exactly two
descriptors in order: the first (from the inner call) has source `$.x`
and no target; the second (for the outer call) has the well-known
intermediate field `$.nested_output` as its source. -/
theorem nested_call_two_descriptors :
    ∃ d1 d2, subParse id 20 "lowercase_string(decode_base64($.x))" = .ok [d1, d2] ∧
      slookup d1 "source" = some (.str "$.x") ∧
      slookup d1 "type" = some (.str "decode_base64") ∧
      slookup d1 "target" = none ∧
      slookup d2 "source" = some (.str "$.nested_output") ∧
      slookup d2 "type" = some (.str "lowercase_string") := by
  refine ⟨_, _, rfl, ?_, ?_, ?_, ?_, ?_⟩ <;> rfl

/-! ## C5: determinism of compilation -/

/-- A map-iteration order: any function that enumerates the entries of the
settings map in some order, i.e. permutes the canonical entry list.  Each
run of the Go compiler corresponds to one such order. -/
def ValidOrd (ord : Settings → Settings) : Prop :=
  ∀ l : Settings, List.Perm (ord l) l

/-- C5 counterexample.  Compiling `foo(a(), b())` — one call with two
nested-call arguments — under two valid iteration orders yields
structurally different descriptor lists: the two flattened nested
descriptors appear in map-iteration order, which Go randomizes per run.
So two runs of the compiler on identical text need not agree. -/
theorem compile_depends_on_iteration_order :
    ValidOrd id ∧ ValidOrd (fun l => l.reverse) ∧
    subParse id 20 "foo(a(), b())" =
      .ok [[("id", .null), ("type", .str "a")],
           [("id", .null), ("type", .str "b")],
           [("id", .null), ("type", .str "foo"), ("source", .str "$.nested_output")]] ∧
    subParse (fun l => l.reverse) 20 "foo(a(), b())" =
      .ok [[("id", .null), ("type", .str "b")],
           [("id", .null), ("type", .str "a")],
           [("id", .null), ("type", .str "foo"), ("source", .str "$.nested_output")]] ∧
    ([[("id", SettingVal.null), ("type", SettingVal.str "a")],
      [("id", SettingVal.null), ("type", SettingVal.str "b")],
      [("id", SettingVal.null), ("type", SettingVal.str "foo"),
       ("source", SettingVal.str "$.nested_output")]] ≠
     [[("id", SettingVal.null), ("type", SettingVal.str "b")],
      [("id", SettingVal.null), ("type", SettingVal.str "a")],
      [("id", SettingVal.null), ("type", SettingVal.str "foo"),
       ("source", SettingVal.str "$.nested_output")]]) := by
  exact ⟨fun l => List.Perm.refl l, fun l => List.reverse_perm l, rfl, rfl, by decide⟩

theorem collectStep_skip (g : String → Except String (List Settings))
    (st : List Settings × Settings) (kv : String × SettingVal)
    (h : nestedEntry kv = false) : collectStep g st kv = .ok st := by
  rw [collectStep]
  rw [nestedEntry] at h
  by_cases h1 : strStartsWith kv.1 "nested_arg_"
  · rw [if_pos h1]
    rw [h1] at h
    simp only [Bool.true_and] at h
    split
    · rename_i s heq; rw [heq] at h; simp at h
    · rfl
  · rw [if_neg h1]

theorem collect_no_nested (g : String → Except String (List Settings)) :
    ∀ (l : List (String × SettingVal)) (settings : Settings) (acc : List Settings),
      l.filter nestedEntry = [] →
      l.foldlM (collectStep g) (acc, settings) = .ok (acc, settings) := by
  intro l
  induction l with
  | nil => intro settings acc _; rfl
  | cons kv rest ih =>
    intro settings acc h
    have hkv : nestedEntry kv = false := by
      by_cases hc : nestedEntry kv
      · rw [List.filter_cons_of_pos hc] at h; cases h
      · simpa using hc
    rw [List.filter_cons_of_neg (by simp [hkv])] at h
    rw [List.foldlM_cons, collectStep_skip g _ _ hkv]
    exact ih settings acc h

theorem collect_one_nested (g : String → Except String (List Settings)) :
    ∀ (l : List (String × SettingVal)) (settings : Settings) (acc : List Settings)
      (k v : String),
      l.filter nestedEntry = [(k, .str v)] →
      l.foldlM (collectStep g) (acc, settings) =
        (match g v with
         | .error e => .error ("error parsing nested function " ++ v ++ ": " ++ e)
         | .ok nested =>
           .ok (acc ++ nested, sinsert (serase settings k) "source" (.str "$.nested_output"))) := by
  intro l
  induction l with
  | nil => intro settings acc k v h; cases h
  | cons kv rest ih =>
    intro settings acc k v h
    rw [List.foldlM_cons]
    by_cases hc : nestedEntry kv
    · rw [List.filter_cons_of_pos hc] at h
      injection h with h1 h2
      subst h1
      have hsw : strStartsWith k "nested_arg_" = true := by
        rw [nestedEntry] at hc
        exact ((Bool.and_eq_true _ _).mp hc).1
      rw [collectStep, if_pos hsw]
      dsimp only
      cases hg : g v with
      | error e => rfl
      | ok nested =>
        dsimp only
        exact collect_no_nested g rest _ _ h2
    · rw [List.filter_cons_of_neg (by simpa using hc)] at h
      rw [collectStep_skip g _ _ (by simpa using hc)]
      exact ih settings acc k v h

/-- The single-nested-call condition under which compilation is
order-independent: along the whole recursive descent, every call's
settings map holds at most one pending nested-call entry (and each nested
script satisfies the same condition).  The shape computations mirror
`parseGo` exactly; lines the compiler rejects deterministically impose no
condition. -/
def checkGo : Nat → ParseTask → Bool
  | 0, _ => true
  | fuel + 1, task =>
    match task with
    | .script sublang =>
      (strSplitChar sublang '\n').all fun line =>
        let l := goTrim line
        if l = "" ∨ strStartsWith l "#" then true
        else checkGo fuel (.line l)
    | .line line =>
      if isDirectAssignment line then true
      else if isAssignmentWithFunction line then checkGo fuel (.assignWithCall line)
      else if isFunctionCall line then checkGo fuel (.call line "")
      else true
    | .assignWithCall line =>
      let eqIdx := (strIndexChar line '=').getD 0
      let target := goTrim (strSlice line 0 eqIdx)
      let funcCall := goTrim (strSlice line (eqIdx + 1) line.data.length)
      checkGo fuel (.call funcCall target)
    | .call line _ =>
      match strIndexChar line '(', strLastIndexChar line ')' with
      | some openParen, some closeParen =>
        if closeParen ≤ openParen then true
        else
          let funcName := goTrim (strSlice line 0 openParen)
          let argsStr := strSlice line (openParen + 1) closeParen
          match parseArgumentsSub argsStr with
          | .error _ => true
          | .ok args =>
            match buildTransformSettings funcName args with
            | .error _ => true
            | .ok settings =>
              let nested := settings.filter nestedEntry
              decide (nested.length ≤ 1) &&
                nested.all fun kv =>
                  match kv.2 with
                  | .str v => checkGo fuel (.script v)
                  | _ => true
      | _, _ => true

theorem lines_fold_eq (p q : String → Except String (List Settings)) :
    ∀ (lines : List String) (acc : List Settings),
      (∀ line ∈ lines,
        ¬(goTrim line = "" ∨ strStartsWith (goTrim line) "#" = true) →
        p (goTrim line) = q (goTrim line)) →
      lines.foldlM
        (fun acc line =>
          let l := goTrim line
          if l = "" ∨ strStartsWith l "#" then Except.ok acc
          else
            match p l with
            | .error e => .error e
            | .ok ts => Except.ok (acc ++ ts)) acc =
      lines.foldlM
        (fun acc line =>
          let l := goTrim line
          if l = "" ∨ strStartsWith l "#" then Except.ok acc
          else
            match q l with
            | .error e => .error e
            | .ok ts => Except.ok (acc ++ ts)) acc := by
  intro lines
  induction lines with
  | nil => intro acc _; rfl
  | cons line rest ihl =>
    intro acc h
    rw [List.foldlM_cons, List.foldlM_cons]
    dsimp only
    by_cases hskip : goTrim line = "" ∨ strStartsWith (goTrim line) "#" = true
    · rw [if_pos (by simpa using hskip), if_pos (by simpa using hskip)]
      exact ihl acc (fun l hl hns => h l (List.mem_cons_of_mem _ hl) hns)
    · rw [if_neg (by simpa using hskip), if_neg (by simpa using hskip)]
      rw [h line (List.mem_cons_self _ _) hskip]
      cases q (goTrim line) with
      | error e => rfl
      | ok ts =>
        dsimp only
        exact ihl (acc ++ ts) (fun l hl hns => h l (List.mem_cons_of_mem _ hl) hns)

/-- The key order-independence lemma behind the amended C5: whenever every
call along the descent carries at most one pending nested-call argument
(`checkGo`), compilation under any valid map-iteration order agrees with
compilation under the canonical order. -/
theorem parseGo_ord_independent (ord : Settings → Settings) (hord : ValidOrd ord) :
    ∀ (fuel : Nat) (task : ParseTask), checkGo fuel task = true →
      parseGo ord fuel task = parseGo id fuel task := by
  intro fuel
  induction fuel with
  | zero => intro task _; rfl
  | succ fuel ih =>
    intro task hc
    match task with
    | .script sublang =>
      rw [checkGo] at hc
      dsimp only at hc
      rw [List.all_eq_true] at hc
      rw [parseGo, parseGo]
      dsimp only
      apply lines_fold_eq
        (fun l => parseGo ord fuel (.line l)) (fun l => parseGo id fuel (.line l))
      intro line hl hns
      have hcl := hc line hl
      rw [if_neg (by simpa using hns)] at hcl
      exact ih (.line (goTrim line)) hcl
    | .line line =>
      rw [checkGo] at hc
      rw [parseGo, parseGo]
      by_cases h1 : isDirectAssignment line
      · simp only [if_pos h1]
      · simp only [if_neg h1] at hc ⊢
        by_cases h2 : isAssignmentWithFunction line
        · simp only [if_pos h2] at hc ⊢
          exact ih (.assignWithCall line) hc
        · simp only [if_neg h2] at hc ⊢
          by_cases h3 : isFunctionCall line
          · simp only [if_pos h3] at hc ⊢
            exact ih (.call line "") hc
          · simp only [if_neg h3]
    | .assignWithCall line =>
      rw [checkGo] at hc
      rw [parseGo, parseGo]
      rw [ih (.call (goTrim (strSlice line ((strIndexChar line '=').getD 0 + 1) line.data.length))
              (goTrim (strSlice line 0 ((strIndexChar line '=').getD 0)))) hc]
    | .call line target =>
      rw [checkGo] at hc
      rw [parseGo, parseGo]
      dsimp only
      cases hopen : strIndexChar line '(' with
      | none => rfl
      | some openParen =>
        cases hclose : strLastIndexChar line ')' with
        | none => rfl
        | some closeParen =>
          rw [hopen, hclose] at hc
          dsimp only at hc
          by_cases hle : closeParen ≤ openParen
          · simp only [if_pos hle]
          · simp only [if_neg hle] at hc ⊢
            cases hargs : parseArgumentsSub (strSlice line (openParen + 1) closeParen) with
            | error e => rfl
            | ok args =>
              rw [hargs] at hc
              dsimp only at hc ⊢
              cases hbs : buildTransformSettings (goTrim (strSlice line 0 openParen)) args with
              | error e => rfl
              | ok settings =>
                rw [hbs] at hc
                dsimp only at hc ⊢
                simp only [id_eq]
                rw [Bool.and_eq_true, List.all_eq_true] at hc
                obtain ⟨hlen, hall⟩ := hc
                have hlen' : (settings.filter nestedEntry).length ≤ 1 :=
                  of_decide_eq_true hlen
                have hperm : List.Perm ((ord settings).filter nestedEntry)
                    (settings.filter nestedEntry) := (hord settings).filter nestedEntry
                cases hfil : settings.filter nestedEntry with
                | nil =>
                  rw [hfil] at hperm
                  have hfil2 : (ord settings).filter nestedEntry = [] := hperm.eq_nil
                  rw [collect_no_nested _ _ _ _ hfil2, collect_no_nested _ _ _ _ hfil]
                | cons kv restf =>
                  cases restf with
                  | cons kv2 restf2 =>
                    exfalso
                    rw [hfil] at hlen'
                    simp at hlen'
                  | nil =>
                    rw [hfil] at hperm hall
                    have hkv : nestedEntry kv = true := by
                      have hmem : kv ∈ settings.filter nestedEntry := by rw [hfil]; simp
                      exact (List.mem_filter.mp hmem).2
                    obtain ⟨k, v2⟩ := kv
                    cases v2 with
                    | bool b => exfalso; rw [nestedEntry] at hkv; simp at hkv
                    | int n => exfalso; rw [nestedEntry] at hkv; simp at hkv
                    | null => exfalso; rw [nestedEntry] at hkv; simp at hkv
                    | str v =>
                      have hfil2 : (ord settings).filter nestedEntry = [(k, .str v)] :=
                        List.perm_singleton.mp hperm
                      rw [collect_one_nested _ _ _ _ k v hfil2,
                          collect_one_nested _ _ _ _ k v hfil]
                      have hcv : checkGo fuel (.script v) = true := by
                        have := hall (k, .str v) (by simp)
                        simpa using this
                      rw [ih (.script v) hcv]

/-- C5 amended.  Compilation is deterministic up to map-iteration order of
the nested-call loop: two runs of the compiler (any two valid iteration
orders over the settings map) on the same script yield structurally equal
descriptor lists whenever no call in the script carries two or more
nested-call arguments.  (With two or more, the counterexample shows the
flattened descriptor order can differ between runs.) -/
theorem compile_deterministic_when_single_nested
    (ord₁ ord₂ : Settings → Settings) (h₁ : ValidOrd ord₁) (h₂ : ValidOrd ord₂)
    (fuel : Nat) (s : String) (hc : checkGo fuel (.script s) = true) :
    subParse ord₁ fuel s = subParse ord₂ fuel s := by
  rw [subParse, subParse]
  exact (parseGo_ord_independent ord₁ h₁ fuel (.script s) hc).trans
    (parseGo_ord_independent ord₂ h₂ fuel (.script s) hc).symm

/-- C5 amended witness: a script with one nested call compiles identically
under the canonical and the reversed iteration orders. -/
theorem compile_deterministic_when_single_nested_witness :
    subParse id 20 "lowercase_string(decode_base64($.x))" =
    subParse (fun l => l.reverse) 20 "lowercase_string(decode_base64($.x))" :=
  compile_deterministic_when_single_nested id (fun l => l.reverse)
    (fun l => List.Perm.refl l) (fun l => List.reverse_perm l)
    20 "lowercase_string(decode_base64($.x))" rfl

/-! ## C2/C6: path-engine lemmas -/

theorem jlookup_jinsert_self (kvs : List (String × Json)) (k : String) (v : Json) :
    jlookup (jinsert kvs k v) k = some v := by
  induction kvs with
  | nil => simp [jinsert, jlookup]
  | cons kv rest ih =>
    rw [jinsert]
    by_cases h : kv.1 = k
    · rw [if_pos h, jlookup, if_pos h]
    · rw [if_neg h, jlookup, if_neg h]
      exact ih

theorem jlookup_jerase_self (kvs : List (String × Json)) (k : String)
    (hnd : (kvs.map Prod.fst).Nodup) : jlookup (jerase kvs k) k = none := by
  induction kvs with
  | nil => rfl
  | cons kv rest ih =>
    rw [jerase]
    rw [List.map_cons, List.nodup_cons] at hnd
    by_cases h : kv.1 = k
    · rw [if_pos h]
      subst h
      cases hl : jlookup rest kv.1 with
      | none => rfl
      | some w =>
        exfalso
        apply hnd.1
        clear ih hnd
        induction rest with
        | nil => cases hl
        | cons kv2 rest2 ih2 =>
          rw [jlookup] at hl
          rw [List.map_cons]
          by_cases h2 : kv2.1 = kv.1
          · simp [h2]
          · rw [if_neg h2] at hl
            simp [ih2 hl]
    · rw [if_neg h, jlookup, if_neg h]
      exact ih hnd.2

/-- `getFromInterface` over a path decomposition. -/
theorem getIn_append (l₁ l₂ : List String) :
    ∀ obj : Json, obj.getIn (l₁ ++ l₂) =
      (match obj.getIn l₁ with
       | .error e => .error e
       | .ok o => o.getIn l₂) := by
  induction l₁ with
  | nil => intro obj; rfl
  | cons part rest ih =>
    intro obj
    rw [List.cons_append]
    cases obj with
    | obj kvs =>
      rw [Json.getIn, Json.getIn]
      cases jlookup kvs part with
      | none => rfl
      | some v => exact ih v
    | arr xs =>
      rw [Json.getIn, Json.getIn]
      cases atoi part with
      | none => rfl
      | some idx =>
        dsimp only
        by_cases hneg : idx < 0
        · simp only [if_pos hneg]
        · simp only [if_neg hneg]
          cases xs.get? idx.toNat with
          | none => rfl
          | some v => exact ih v
    | null => rfl
    | str s => rfl
    | int n => rfl
    | bool b => rfl

theorem get?_set_self {α : Type} (l : List α) (i : Nat) (a : α) (h : i < l.length) :
    (l.set i a).get? i = some a := by
  induction l generalizing i with
  | nil => simp at h
  | cons x tl ih =>
    cases i with
    | zero => rfl
    | succ j =>
      rw [List.set_cons_succ]
      simpa using ih j (by simpa using h)

theorem get?_set_ne {α : Type} (l : List α) (i j : Nat) (a : α) (h : j ≠ i) :
    (l.set i a).get? j = l.get? j := by
  induction l generalizing i j with
  | nil => simp
  | cons x tl ih =>
    cases i with
    | zero =>
      cases j with
      | zero => exact absurd rfl h
      | succ j2 => rfl
    | succ i2 =>
      cases j with
      | zero => rfl
      | succ j2 =>
        rw [List.set_cons_succ]
        simpa using ih i2 j2 (by omega)

theorem getIn_updateAt : ∀ (path : List String) (obj x y : Json),
    obj.getIn path = .ok x → (updateAt obj path y).getIn path = .ok y := by
  intro path
  induction path with
  | nil => intro obj x y _; cases obj <;> rfl
  | cons part rest ih =>
    intro obj x y h
    cases obj with
    | null => simp [Json.getIn] at h
    | str s => simp [Json.getIn] at h
    | int n => simp [Json.getIn] at h
    | bool b => simp [Json.getIn] at h
    | obj kvs =>
      rw [Json.getIn] at h
      cases hl : jlookup kvs part with
      | none => rw [hl] at h; cases h
      | some child =>
        rw [hl] at h
        dsimp only at h
        rw [updateAt, hl]
        rw [Json.getIn, jlookup_jinsert_self]
        exact ih child x y h
    | arr xs =>
      rw [Json.getIn] at h
      cases ha : atoi part with
      | none => rw [ha] at h; cases h
      | some idx =>
        rw [ha] at h
        dsimp only at h
        by_cases hneg : idx < 0
        · rw [if_pos hneg] at h; cases h
        · rw [if_neg hneg] at h
          cases hg : xs.get? idx.toNat with
          | none => rw [hg] at h; cases h
          | some child =>
            rw [hg] at h
            dsimp only at h
            have hlt : idx.toNat < xs.length := by
              by_contra hge
              rw [List.get?_eq_none.mpr (by omega)] at hg
              cases hg
            rw [updateAt, ha]
            dsimp only
            rw [if_neg hneg, hg]
            rw [Json.getIn, ha]
            dsimp only
            rw [if_neg hneg, get?_set_self _ _ _ hlt]
            exact ih child x y h

theorem top_is_obj_of_nonNumeric (k : String) (rest : List String) (obj x : Json)
    (hk : atoi k = none) (h : obj.getIn (k :: rest) = .ok x) :
    ∃ kvs, obj = Json.obj kvs := by
  cases obj with
  | obj kvs => exact ⟨kvs, rfl⟩
  | arr xs => simp [Json.getIn, hk] at h
  | null => simp [Json.getIn] at h
  | str s => simp [Json.getIn] at h
  | int n => simp [Json.getIn] at h
  | bool b => simp [Json.getIn] at h

/-- Unconditional unfolding of `setIn` on a two-or-more-segment path in an
object-rooted tree (the nil-coalescing of the Go code is a no-op there). -/
theorem setIn_cons₂_obj (kvs0 : List (String × Json)) (p₁ p₂ : String)
    (rest : List String) (value : Json) :
    (Json.obj kvs0).setIn (p₁ :: p₂ :: rest) value =
      (match (match (Json.obj kvs0).getIn ((p₁ :: p₂ :: rest).dropLast) with
              | .ok _ => Except.ok (Json.obj kvs0)
              | .error _ => (Json.obj kvs0).setIn ((p₁ :: p₂ :: rest).dropLast) (Json.obj [])) with
       | .error e => .error e
       | .ok obj2 =>
         match (match obj2.getIn ((p₁ :: p₂ :: rest).dropLast) with
                | .ok p => p
                | .error _ => Json.null) with
         | .obj kvs =>
           .ok (updateAt obj2 ((p₁ :: p₂ :: rest).dropLast)
                 (.obj (jinsert kvs ((p₁ :: p₂ :: rest).getLast (by simp)) value)))
         | .arr xs =>
           match atoi ((p₁ :: p₂ :: rest).getLast (by simp)) with
           | some idx =>
             if idx < 0 then
               .error ("invalid array index '" ++ (p₁ :: p₂ :: rest).getLast (by simp) ++ "'")
             else
               match obj2.setIn ((p₁ :: p₂ :: rest).dropLast)
                   (.arr ((xs ++ List.replicate (idx.toNat + 1 - xs.length) Json.null).set
                     idx.toNat value)) with
               | .ok o => .ok o
               | .error _ => .ok Json.null
           | none =>
             .error ("invalid array index '" ++ (p₁ :: p₂ :: rest).getLast (by simp) ++ "'")
         | _ =>
           .error ("cannot set key '" ++ (p₁ :: p₂ :: rest).getLast (by simp) ++
             "' in non-object/non-array")) := by
  rw [Json.setIn]
  simp

/-- Write-back success: setting any value at a path that resolves in a
tree whose root is a mapping succeeds, and the path then reads back the
written value. -/
theorem setIn_resolved :
    ∀ (n : Nat) (qs : List String), qs.length = n → qs ≠ [] →
      ∀ (kvs0 : List (String × Json)) (x y : Json),
        (Json.obj kvs0).getIn qs = .ok x →
        ∃ o, (Json.obj kvs0).setIn qs y = .ok o ∧ o.getIn qs = .ok y := by
  intro n
  induction n with
  | zero =>
    intro qs hlen hne
    exact absurd (List.length_eq_zero.mp hlen) hne
  | succ n ih =>
    intro qs hlen hne kvs0 x y hget
    match qs, hlen with
    | [q], _ =>
      rw [Json.setIn]
      refine ⟨.obj (jinsert kvs0 q y), rfl, ?_⟩
      rw [Json.getIn, jlookup_jinsert_self]
      rfl
    | q₁ :: q₂ :: rest, hlen =>
      have hlen' : (q₁ :: q₂ :: rest).length = n + 1 := hlen
      have hqs : (q₁ :: q₂ :: rest).dropLast ++ [(q₁ :: q₂ :: rest).getLast (by simp)] =
          q₁ :: q₂ :: rest := List.dropLast_append_getLast (by simp)
      have hn1 : n = rest.length + 1 := by
        have h := hlen'
        simp at h
        omega
      have hpslen : (q₁ :: q₂ :: rest).dropLast.length = n := by
        rw [List.length_dropLast]
        simp
        omega
      have hpsne : (q₁ :: q₂ :: rest).dropLast ≠ [] := by
        intro hc
        rw [hc] at hpslen
        simp at hpslen
        omega
      have hget2 : (Json.obj kvs0).getIn
          ((q₁ :: q₂ :: rest).dropLast ++ [(q₁ :: q₂ :: rest).getLast (by simp)]) =
          Except.ok x := by rw [hqs]; exact hget
      rw [getIn_append] at hget2
      cases hnav : (Json.obj kvs0).getIn (q₁ :: q₂ :: rest).dropLast with
      | error e => rw [hnav] at hget2; cases hget2
      | ok parent =>
        rw [hnav] at hget2
        dsimp only at hget2
        rw [setIn_cons₂_obj]
        rw [hnav]
        dsimp only
        rw [hnav]
        dsimp only
        cases parent with
        | null => simp [Json.getIn] at hget2
        | str s => simp [Json.getIn] at hget2
        | int m => simp [Json.getIn] at hget2
        | bool b => simp [Json.getIn] at hget2
        | obj m =>
          refine ⟨_, rfl, ?_⟩
          suffices hfin : (updateAt (Json.obj kvs0) (q₁ :: q₂ :: rest).dropLast
              (Json.obj (jinsert m ((q₁ :: q₂ :: rest).getLast (by simp)) y))).getIn
              ((q₁ :: q₂ :: rest).dropLast ++ [(q₁ :: q₂ :: rest).getLast (by simp)]) =
              Except.ok y by
            rw [hqs] at hfin
            exact hfin
          rw [getIn_append, getIn_updateAt _ _ _ _ hnav]
          dsimp only
          rw [Json.getIn, jlookup_jinsert_self]
          rfl
        | arr xs =>
          rw [Json.getIn] at hget2
          cases ha : atoi ((q₁ :: q₂ :: rest).getLast (by simp)) with
          | none => rw [ha] at hget2; cases hget2
          | some idx =>
            rw [ha] at hget2
            dsimp only at hget2
            by_cases hneg : idx < 0
            · rw [if_pos hneg] at hget2; cases hget2
            · rw [if_neg hneg] at hget2
              cases hg : xs.get? idx.toNat with
              | none => rw [hg] at hget2; cases hget2
              | some child =>
                have hlt : idx.toNat < xs.length := by
                  by_contra hge
                  rw [List.get?_eq_none.mpr (by omega)] at hg
                  cases hg
                dsimp only
                rw [if_neg hneg]
                have hzero : idx.toNat + 1 - xs.length = 0 := by omega
                rw [hzero, List.replicate_zero, List.append_nil]
                obtain ⟨o', ho', hgo'⟩ :=
                  ih (q₁ :: q₂ :: rest).dropLast hpslen hpsne kvs0 (.arr xs)
                    (.arr (xs.set idx.toNat y)) hnav
                rw [ho']
                refine ⟨o', rfl, ?_⟩
                suffices hfin : o'.getIn
                    ((q₁ :: q₂ :: rest).dropLast ++ [(q₁ :: q₂ :: rest).getLast (by simp)]) =
                    Except.ok y by
                  rw [hqs] at hfin
                  exact hfin
                rw [getIn_append, hgo']
                dsimp only
                rw [Json.getIn, ha]
                dsimp only
                rw [if_neg hneg, get?_set_self _ _ _ hlt]
                rfl

/-- `setIn` on a mapping root with a single segment: plain map assignment. -/
theorem setIn_single_obj (kvs0 : List (String × Json)) (q : String) (value : Json) :
    (Json.obj kvs0).setIn [q] value = .ok (.obj (jinsert kvs0 q value)) := by
  rw [Json.setIn]

/-- `setIn` on a nil root with a single segment: a fresh map is created. -/
theorem setIn_single_null (q : String) (value : Json) :
    Json.null.setIn [q] value = .ok (.obj (jinsert [] q value)) := by
  rw [Json.setIn]

/-- `setIn` with a single segment fails on any non-mapping, non-nil root. -/
theorem setIn_single_err (root : Json) (q : String) (value : Json)
    (hno : ∀ kvs, root ≠ Json.obj kvs) (hnn : root ≠ Json.null) :
    root.setIn [q] value = .error ("cannot set key '" ++ q ++ "' in non-object") := by
  cases root with
  | null => exact absurd rfl hnn
  | obj kvs => exact absurd rfl (hno kvs)
  | str s => rw [Json.setIn] <;> simp
  | int m => rw [Json.setIn] <;> simp
  | bool b => rw [Json.setIn] <;> simp
  | arr xs => rw [Json.setIn] <;> simp

/-- On a multi-segment path a nil root behaves exactly like an empty map. -/
theorem setIn_null_eq (parts : List String) (v : Json) (h : parts ≠ []) :
    Json.null.setIn parts v = (Json.obj []).setIn parts v := by
  match parts with
  | [] => exact absurd rfl h
  | [q] => rw [setIn_single_null, setIn_single_obj]
  | p₁ :: p₂ :: rest => rw [Json.setIn, setIn_cons₂_obj]

/-- Navigation from a scalar or array root fails on a non-numeric head
segment, so `setIn` fails on such roots: the container-creation chain
bottoms out at the head segment, which cannot be created in a non-mapping
root. -/
theorem setIn_nonobj_error :
    ∀ (n : Nat) (q : String) (qrest : List String), (q :: qrest).length = n →
      atoi q = none →
      ∀ (root v : Json), (∀ kvs, root ≠ Json.obj kvs) → root ≠ Json.null →
        ∃ e, root.setIn (q :: qrest) v = .error e := by
  intro n
  induction n with
  | zero => intro q qrest hlen _; simp at hlen
  | succ n ih =>
    intro q qrest hlen hq root v hno hnn
    cases qrest with
    | nil => exact ⟨_, setIn_single_err root q v hno hnn⟩
    | cons r rest =>
      have hglen : (q :: (r :: rest).dropLast).length = n := by
        simp [List.length_dropLast] at hlen ⊢
        omega
      obtain ⟨e', he'⟩ := ih q (r :: rest).dropLast hglen hq root (Json.obj []) hno hnn
      cases root with
      | null => exact absurd rfl hnn
      | obj kvs => exact absurd rfl (hno kvs)
      | str s =>
        refine ⟨e', ?_⟩
        rw [Json.setIn]
        · rw [show (q :: r :: rest).dropLast = q :: (r :: rest).dropLast from rfl]
          have hg : (Json.str s).getIn (q :: (r :: rest).dropLast) =
              .error ("cannot access key '" ++ q ++ "' in non-object/non-array") := rfl
          rw [hg]
          dsimp only
          rw [he']
        · simp
      | int m =>
        refine ⟨e', ?_⟩
        rw [Json.setIn]
        · rw [show (q :: r :: rest).dropLast = q :: (r :: rest).dropLast from rfl]
          have hg : (Json.int m).getIn (q :: (r :: rest).dropLast) =
              .error ("cannot access key '" ++ q ++ "' in non-object/non-array") := rfl
          rw [hg]
          dsimp only
          rw [he']
        · simp
      | bool b =>
        refine ⟨e', ?_⟩
        rw [Json.setIn]
        · rw [show (q :: r :: rest).dropLast = q :: (r :: rest).dropLast from rfl]
          have hg : (Json.bool b).getIn (q :: (r :: rest).dropLast) =
              .error ("cannot access key '" ++ q ++ "' in non-object/non-array") := rfl
          rw [hg]
          dsimp only
          rw [he']
        · simp
      | arr xs =>
        refine ⟨e', ?_⟩
        rw [Json.setIn]
        · rw [show (q :: r :: rest).dropLast = q :: (r :: rest).dropLast from rfl]
          have hg : (Json.arr xs).getIn (q :: (r :: rest).dropLast) =
              .error ("invalid array index '" ++ q ++ "'") := by
            rw [Json.getIn, hq]
          rw [hg]
          dsimp only
          rw [he']
        · simp

/-- Full set-then-get roundtrip for trees whose root is a mapping: whenever
`setIn` succeeds (including through the container-creation branch), the
written path reads back exactly the written value. -/
theorem setIn_roundtrip_obj :
    ∀ (n : Nat) (qs : List String), qs.length = n → qs ≠ [] →
      ∀ (kvs0 : List (String × Json)) (y o : Json),
        (Json.obj kvs0).setIn qs y = .ok o →
        o.getIn qs = .ok y := by
  intro n
  induction n with
  | zero =>
    intro qs hlen hne
    exact absurd (List.length_eq_zero.mp hlen) hne
  | succ n ih =>
    intro qs hlen hne kvs0 y o hset
    match qs, hlen with
    | [q], _ =>
      rw [setIn_single_obj] at hset
      cases hset
      rw [Json.getIn, jlookup_jinsert_self]
      rfl
    | q₁ :: q₂ :: rest, hlen =>
      have hqs : (q₁ :: q₂ :: rest).dropLast ++ [(q₁ :: q₂ :: rest).getLast (by simp)] =
          q₁ :: q₂ :: rest := List.dropLast_append_getLast (by simp)
      have hpslen : (q₁ :: q₂ :: rest).dropLast.length = n := by
        rw [List.length_dropLast]
        simp at hlen ⊢
        omega
      have hpsne : (q₁ :: q₂ :: rest).dropLast ≠ [] := by
        rw [show (q₁ :: q₂ :: rest).dropLast = q₁ :: (q₂ :: rest).dropLast from rfl]
        simp
      rw [setIn_cons₂_obj] at hset
      cases hnav : (Json.obj kvs0).getIn (q₁ :: q₂ :: rest).dropLast with
      | ok parent =>
        rw [hnav] at hset
        dsimp only at hset
        rw [hnav] at hset
        dsimp only at hset
        cases parent with
        | obj m =>
          cases hset
          suffices hfin : (updateAt (Json.obj kvs0) (q₁ :: q₂ :: rest).dropLast
              (Json.obj (jinsert m ((q₁ :: q₂ :: rest).getLast (by simp)) y))).getIn
              ((q₁ :: q₂ :: rest).dropLast ++ [(q₁ :: q₂ :: rest).getLast (by simp)]) =
              Except.ok y by
            rw [hqs] at hfin
            exact hfin
          rw [getIn_append, getIn_updateAt _ _ _ _ hnav]
          dsimp only
          rw [Json.getIn, jlookup_jinsert_self]
          rfl
        | arr xs =>
          cases ha : atoi ((q₁ :: q₂ :: rest).getLast (by simp)) with
          | none => rw [ha] at hset; cases hset
          | some idx =>
            rw [ha] at hset
            dsimp only at hset
            by_cases hneg : idx < 0
            · rw [if_pos hneg] at hset; cases hset
            · rw [if_neg hneg] at hset
              obtain ⟨o', ho', hgo'⟩ :=
                setIn_resolved ((q₁ :: q₂ :: rest).dropLast.length)
                  (q₁ :: q₂ :: rest).dropLast rfl hpsne kvs0 (.arr xs)
                  (.arr ((xs ++ List.replicate (idx.toNat + 1 - xs.length) Json.null).set
                    idx.toNat y)) hnav
              rw [ho'] at hset
              dsimp only at hset
              cases hset
              suffices hfin : o.getIn
                  ((q₁ :: q₂ :: rest).dropLast ++ [(q₁ :: q₂ :: rest).getLast (by simp)]) =
                  Except.ok y by
                rw [hqs] at hfin
                exact hfin
              rw [getIn_append, hgo']
              dsimp only
              rw [Json.getIn, ha]
              dsimp only
              have hlt : idx.toNat <
                  (xs ++ List.replicate (idx.toNat + 1 - xs.length) Json.null).length := by
                simp [List.length_append, List.length_replicate]
                omega
              rw [if_neg hneg, get?_set_self _ _ _ hlt]
              rfl
        | null => cases hset
        | str s => cases hset
        | int m => cases hset
        | bool b => cases hset
      | error e =>
        rw [hnav] at hset
        dsimp only at hset
        cases hcr : (Json.obj kvs0).setIn (q₁ :: q₂ :: rest).dropLast (Json.obj []) with
        | error e' => rw [hcr] at hset; cases hset
        | ok obj2 =>
          rw [hcr] at hset
          dsimp only at hset
          have hres : obj2.getIn (q₁ :: q₂ :: rest).dropLast = .ok (Json.obj []) :=
            ih (q₁ :: q₂ :: rest).dropLast hpslen hpsne kvs0 (Json.obj []) obj2 hcr
          rw [hres] at hset
          dsimp only at hset
          cases hset
          suffices hfin : (updateAt obj2 (q₁ :: q₂ :: rest).dropLast
              (Json.obj (jinsert [] ((q₁ :: q₂ :: rest).getLast (by simp)) y))).getIn
              ((q₁ :: q₂ :: rest).dropLast ++ [(q₁ :: q₂ :: rest).getLast (by simp)]) =
              Except.ok y by
            rw [hqs] at hfin
            exact hfin
          rw [getIn_append, getIn_updateAt _ _ _ _ hres]
          dsimp only
          rw [Json.getIn, jlookup_jinsert_self]
          rfl

/-- Splitting a string that starts with `"$."` on `'.'` yields the root
token followed by the split of the remainder. -/
theorem splitCharList_dollar (t : List Char) :
    splitCharList '.' ('$' :: '.' :: t) = ['$'] :: splitCharList '.' t := by
  rw [splitCharList, if_neg (by decide), splitCharList, if_pos rfl]

/-- Splitting a string that starts with `"meta.$."` on `'.'` yields the two
root tokens followed by the split of the remainder. -/
theorem splitCharList_meta (t : List Char) :
    splitCharList '.' ('m' :: 'e' :: 't' :: 'a' :: '.' :: '$' :: '.' :: t) =
      ['m', 'e', 't', 'a'] :: ['$'] :: splitCharList '.' t := by
  rw [splitCharList, if_neg (by decide), splitCharList, if_neg (by decide),
      splitCharList, if_neg (by decide), splitCharList, if_neg (by decide),
      splitCharList, if_pos rfl, splitCharList_dollar]

/-- `strings.HasPrefix` decomposed into character lists. -/
theorem strStartsWith_data (s pre : String) (h : strStartsWith s pre = true) :
    ∃ t, s.data = pre.data ++ t := by
  have h' : pre.data.isPrefixOf s.data = true := h
  obtain ⟨t, ht⟩ := List.isPrefixOf_iff_prefix.mp h'
  exact ⟨t, ht.symm⟩

/-- `Value.Exists` on a found value is existence of a non-nil value. -/
theorem value_exists_true_iff (v : Json) :
    (Value.mk v true).Exists = true ↔ v ≠ Json.null := by
  cases v <;> simp [Value.Exists]

/-- Buffer-level set-then-get roundtrip, for part lists whose head segment
is non-numeric (as produced by `NewJSONPath` on a valid message path). -/
theorem jsonpathSet_roundtrip (q : String) (qrest : List String)
    (c c' : Content) (v : Json) (hq : atoi q = none)
    (hset : JSONPath.Set (q :: qrest) c v = .ok c') :
    JSONPath.Get (q :: qrest) c' = .ok v := by
  cases c with
  | empty =>
    rw [JSONPath.Set] at hset
    cases hs : (Json.obj []).setIn (q :: qrest) v with
    | error e => rw [hs] at hset; cases hset
    | ok o =>
      rw [hs] at hset
      cases hset
      rw [JSONPath.Get]
      exact setIn_roundtrip_obj (q :: qrest).length (q :: qrest) rfl (by simp) [] v o hs
  | invalid => cases hset
  | tree obj =>
    rw [JSONPath.Set] at hset
    cases obj with
    | null =>
      rw [setIn_null_eq _ _ (by simp)] at hset
      cases hs : (Json.obj []).setIn (q :: qrest) v with
      | error e => rw [hs] at hset; cases hset
      | ok o =>
        rw [hs] at hset
        cases hset
        rw [JSONPath.Get]
        exact setIn_roundtrip_obj (q :: qrest).length (q :: qrest) rfl (by simp) [] v o hs
    | obj kvs =>
      cases hs : (Json.obj kvs).setIn (q :: qrest) v with
      | error e => rw [hs] at hset; cases hset
      | ok o =>
        rw [hs] at hset
        cases hset
        rw [JSONPath.Get]
        exact setIn_roundtrip_obj (q :: qrest).length (q :: qrest) rfl (by simp) kvs v o hs
    | str s =>
      obtain ⟨e, he⟩ := setIn_nonobj_error (q :: qrest).length q qrest rfl hq (.str s) v
        (fun kvs h => Json.noConfusion h) (fun h => Json.noConfusion h)
      rw [he] at hset
      cases hset
    | int m =>
      obtain ⟨e, he⟩ := setIn_nonobj_error (q :: qrest).length q qrest rfl hq (.int m) v
        (fun kvs h => Json.noConfusion h) (fun h => Json.noConfusion h)
      rw [he] at hset
      cases hset
    | bool b =>
      obtain ⟨e, he⟩ := setIn_nonobj_error (q :: qrest).length q qrest rfl hq (.bool b) v
        (fun kvs h => Json.noConfusion h) (fun h => Json.noConfusion h)
      rw [he] at hset
      cases hset
    | arr xs =>
      obtain ⟨e, he⟩ := setIn_nonobj_error (q :: qrest).length q qrest rfl hq (.arr xs) v
        (fun kvs h => Json.noConfusion h) (fun h => Json.noConfusion h)
      rw [he] at hset
      cases hset

/-- C2: for every valid non-root path, a successful `SetValue` followed by
`GetValue` at the same path returns the written value with `found` true;
the `Exists` predicate is additionally true exactly when the written value
is not nil (a written nil reads back as non-existent). -/
theorem setValue_getValue_roundtrip (m m' : Message) (p : String) (v : Json)
    (hvalid : isValidJSONPath (goTrim p) = true)
    (hnr1 : goTrim p ≠ "$") (hnr2 : goTrim p ≠ "meta.$")
    (hok : m.SetValue p v = .ok m') :
    (m'.GetValue p).found = true ∧ (m'.GetValue p).value = v ∧
      ((m'.GetValue p).Exists = true ↔ v ≠ Json.null) := by
  have hv' := hvalid
  simp only [isValidJSONPath, Bool.or_eq_true, decide_eq_true_eq] at hv'
  rcases hv' with ((h | h) | hd) | hm
  · exact absurd h hnr1
  · exact absurd h hnr2
  · obtain ⟨t, ht⟩ := strStartsWith_data _ _ hd
    have ht' : (goTrim p).data = '$' :: '.' :: t := by rw [ht]; rfl
    have hm' : strStartsWith (goTrim p) "meta.$." = false := by
      simp only [strStartsWith]
      rw [ht']
      rfl
    have hnm : ¬(strStartsWith (goTrim p) "meta.$." = true) := by rw [hm']; simp
    have hne : goTrim p ≠ "" := by
      intro hc
      rw [hc] at ht'
      exact List.noConfusion ht'
    have hnp : NewJSONPath (goTrim p) =
        String.mk ['$'] :: (splitCharList '.' t).map String.mk := by
      rw [NewJSONPath, if_neg hne, strSplitChar, ht', splitCharList_dollar]
      rfl
    simp only [Message.SetValue] at hok
    rw [if_neg (not_not_intro hvalid), if_neg hnr1, if_neg hnr2, if_neg hnm,
        if_pos hd, hnp] at hok
    cases hJS : JSONPath.Set (String.mk ['$'] :: (splitCharList '.' t).map String.mk)
        m.data v with
    | error e => rw [hJS] at hok; cases hok
    | ok c =>
      rw [hJS] at hok
      dsimp only at hok
      cases hok
      have hGet := jsonpathSet_roundtrip (String.mk ['$'])
        ((splitCharList '.' t).map String.mk) m.data c v rfl hJS
      simp only [Message.GetValue]
      rw [if_neg (not_not_intro hvalid), if_neg hnr1, if_neg hnr2, if_neg hnm,
          if_pos hd, hnp]
      rw [hGet]
      exact ⟨rfl, rfl, value_exists_true_iff v⟩
  · obtain ⟨t, ht⟩ := strStartsWith_data _ _ hm
    have ht' : (goTrim p).data = 'm' :: 'e' :: 't' :: 'a' :: '.' :: '$' :: '.' :: t := by
      rw [ht]; rfl
    have hne : goTrim p ≠ "" := by
      intro hc
      rw [hc] at ht'
      exact List.noConfusion ht'
    have hnp : NewJSONPath (goTrim p) =
        String.mk ['m', 'e', 't', 'a'] :: String.mk ['$'] ::
          (splitCharList '.' t).map String.mk := by
      rw [NewJSONPath, if_neg hne, strSplitChar, ht', splitCharList_meta]
      rfl
    simp only [Message.SetValue] at hok
    rw [if_neg (not_not_intro hvalid), if_neg hnr1, if_neg hnr2, if_pos hm, hnp] at hok
    cases hJS : JSONPath.Set (String.mk ['m', 'e', 't', 'a'] :: String.mk ['$'] ::
        (splitCharList '.' t).map String.mk) m.meta v with
    | error e => rw [hJS] at hok; cases hok
    | ok c =>
      rw [hJS] at hok
      dsimp only at hok
      cases hok
      have hGet := jsonpathSet_roundtrip (String.mk ['m', 'e', 't', 'a'])
        (String.mk ['$'] :: (splitCharList '.' t).map String.mk) m.meta c v rfl hJS
      simp only [Message.GetValue]
      rw [if_neg (not_not_intro hvalid), if_neg hnr1, if_neg hnr2, if_pos hm, hnp]
      rw [hGet]
      exact ⟨rfl, rfl, value_exists_true_iff v⟩

theorem setValue_getValue_roundtrip_witness :
    (Message.mk Content.empty Content.empty false).SetValue "$.a" (Json.str "x") =
      .ok (Message.mk (Content.tree (Json.obj [("$", Json.obj [("a", Json.str "x")])]))
        Content.empty false) ∧
    (((Message.mk (Content.tree (Json.obj [("$", Json.obj [("a", Json.str "x")])]))
        Content.empty false).GetValue "$.a").found = true ∧
     ((Message.mk (Content.tree (Json.obj [("$", Json.obj [("a", Json.str "x")])]))
        Content.empty false).GetValue "$.a").value = Json.str "x" ∧
     (((Message.mk (Content.tree (Json.obj [("$", Json.obj [("a", Json.str "x")])]))
        Content.empty false).GetValue "$.a").Exists = true ↔ Json.str "x" ≠ Json.null)) := by
  have h1 : (Json.obj []).setIn ["$", "a"] (Json.str "x") =
      .ok (Json.obj [("$", Json.obj [("a", Json.str "x")])]) := by
    rw [setIn_cons₂_obj,
        show ((["$", "a"] : List String).dropLast) = ["$"] from rfl,
        setIn_single_obj]
    rfl
  have h2 : (Message.mk Content.empty Content.empty false).SetValue "$.a" (Json.str "x") =
      (match ((Json.obj []).setIn ["$", "a"] (Json.str "x")).map Content.tree with
       | .ok c => Except.ok (Message.mk c Content.empty false)
       | .error e => Except.error e) := rfl
  have hset : (Message.mk Content.empty Content.empty false).SetValue "$.a"
      (Json.str "x") =
      .ok (Message.mk (Content.tree (Json.obj [("$", Json.obj [("a", Json.str "x")])]))
        Content.empty false) := by
    rw [h2, h1]
    rfl
  exact ⟨hset,
    setValue_getValue_roundtrip _ _ _ _ (by decide) (by decide) (by decide) hset⟩

/-- Counterexample to C2 as stated: setting the representable value nil at
a valid non-root path succeeds and reads back with `found` true, but the
`Exists` test is false, because `Value.Exists` also requires a non-nil
value. -/
theorem setValue_null_reads_back_nonexistent :
    (Message.mk Content.empty Content.empty false).SetValue "$.a" Json.null =
      .ok (Message.mk (Content.tree (Json.obj [("$", Json.obj [("a", Json.null)])]))
        Content.empty false) ∧
    (Message.mk (Content.tree (Json.obj [("$", Json.obj [("a", Json.null)])]))
        Content.empty false).GetValue "$.a" = ⟨Json.null, true⟩ ∧
    Value.Exists ⟨Json.null, true⟩ = false := by
  refine ⟨?_, rfl, rfl⟩
  have h1 : (Json.obj []).setIn ["$", "a"] Json.null =
      .ok (Json.obj [("$", Json.obj [("a", Json.null)])]) := by
    rw [setIn_cons₂_obj,
        show ((["$", "a"] : List String).dropLast) = ["$"] from rfl,
        setIn_single_obj]
    rfl
  have h2 : (Message.mk Content.empty Content.empty false).SetValue "$.a" Json.null =
      (match ((Json.obj []).setIn ["$", "a"] Json.null).map Content.tree with
       | .ok c => Except.ok (Message.mk c Content.empty false)
       | .error e => Except.error e) := rfl
  rw [h2, h1]
  rfl

/-- C6: delete postconditions of `deleteFromInterface`.  (1) Deleting a
path that addresses a key of a mapping removes the key entirely: a
subsequent get at that path fails (existence false).  (2) Deleting a path
that addresses an in-range array index nulls that element in place: the
path then reads back nil, the array keeps its length, and every other
index keeps its original element. -/
theorem delete_postconditions :
    (∀ (kvs0 : List (String × Json)) (qs : List String) (h : qs ≠ [])
       (kvs : List (String × Json)) (o : Json),
       (Json.obj kvs0).getIn qs.dropLast = .ok (.obj kvs) →
       (kvs.map Prod.fst).Nodup →
       (Json.obj kvs0).deleteIn qs = .ok o →
       ∃ e, o.getIn qs = .error e) ∧
    (∀ (kvs0 : List (String × Json)) (qs : List String) (h : qs ≠ [])
       (xs : List Json) (idx : Int) (o : Json),
       (Json.obj kvs0).getIn qs.dropLast = .ok (.arr xs) →
       atoi (qs.getLast h) = some idx →
       0 ≤ idx → idx < (xs.length : Int) →
       (Json.obj kvs0).deleteIn qs = .ok o →
       o.getIn qs = .ok Json.null ∧
       o.getIn qs.dropLast = .ok (.arr (xs.set idx.toNat Json.null)) ∧
       (xs.set idx.toNat Json.null).length = xs.length ∧
       (∀ j : Nat, j ≠ idx.toNat → (xs.set idx.toNat Json.null).get? j = xs.get? j)) := by
  constructor
  · intro kvs0 qs h kvs o hget hnd hdel
    match qs, h with
    | [q], _ =>
      have hget' : Except.ok (Json.obj kvs0) = Except.ok (Json.obj kvs) := hget
      cases hget'
      rw [Json.deleteIn] at hdel
      cases hdel
      refine ⟨("key '" ++ q ++ "' not found"), ?_⟩
      rw [Json.getIn, jlookup_jerase_self _ _ hnd]
    | q₁ :: q₂ :: rest, _ =>
      have hqs : (q₁ :: q₂ :: rest).dropLast ++ [(q₁ :: q₂ :: rest).getLast (by simp)] =
          q₁ :: q₂ :: rest := List.dropLast_append_getLast (by simp)
      have hpsne : (q₁ :: q₂ :: rest).dropLast ≠ [] := by
        rw [show (q₁ :: q₂ :: rest).dropLast = q₁ :: (q₂ :: rest).dropLast from rfl]
        simp
      rw [Json.deleteIn] at hdel
      rw [hget] at hdel
      dsimp only at hdel
      obtain ⟨o', ho', hgo'⟩ :=
        setIn_resolved (q₁ :: q₂ :: rest).dropLast.length (q₁ :: q₂ :: rest).dropLast
          rfl hpsne kvs0 (.obj kvs)
          (.obj (jerase kvs ((q₁ :: q₂ :: rest).getLast (by simp)))) hget
      rw [ho'] at hdel
      dsimp only at hdel
      cases hdel
      suffices hfin : ∃ e, Json.getIn o
          ((q₁ :: q₂ :: rest).dropLast ++ [(q₁ :: q₂ :: rest).getLast (by simp)]) =
          Except.error e by
        obtain ⟨e, he⟩ := hfin
        rw [hqs] at he
        exact ⟨e, he⟩
      refine ⟨("key '" ++ (q₁ :: q₂ :: rest).getLast (by simp) ++ "' not found"), ?_⟩
      rw [getIn_append, hgo']
      dsimp only
      rw [Json.getIn, jlookup_jerase_self _ _ hnd]
  · intro kvs0 qs h xs idx o hget hidx hge hlt hdel
    match qs, h with
    | [q], _ =>
      have hget' : Except.ok (Json.obj kvs0) = Except.ok (Json.arr xs) := hget
      injection hget' with h2
      exact Json.noConfusion h2
    | q₁ :: q₂ :: rest, _ =>
      have hqs : (q₁ :: q₂ :: rest).dropLast ++ [(q₁ :: q₂ :: rest).getLast (by simp)] =
          q₁ :: q₂ :: rest := List.dropLast_append_getLast (by simp)
      have hpsne : (q₁ :: q₂ :: rest).dropLast ≠ [] := by
        rw [show (q₁ :: q₂ :: rest).dropLast = q₁ :: (q₂ :: rest).dropLast from rfl]
        simp
      rw [Json.deleteIn] at hdel
      rw [hget] at hdel
      dsimp only at hdel
      rw [hidx] at hdel
      dsimp only at hdel
      rw [if_pos ⟨hge, hlt⟩] at hdel
      obtain ⟨o', ho', hgo'⟩ :=
        setIn_resolved (q₁ :: q₂ :: rest).dropLast.length (q₁ :: q₂ :: rest).dropLast
          rfl hpsne kvs0 (.arr xs) (.arr (xs.set idx.toNat Json.null)) hget
      rw [ho'] at hdel
      dsimp only at hdel
      cases hdel
      have htn : idx.toNat < xs.length := by omega
      refine ⟨?_, hgo', by rw [List.length_set], fun j hj => get?_set_ne _ _ _ _ hj⟩
      suffices hfin : o.getIn
          ((q₁ :: q₂ :: rest).dropLast ++ [(q₁ :: q₂ :: rest).getLast (by simp)]) =
          Except.ok Json.null by
        rw [hqs] at hfin
        exact hfin
      rw [getIn_append, hgo']
      dsimp only
      rw [Json.getIn, hidx]
      dsimp only
      rw [if_neg (by omega), get?_set_self _ _ _ htn]
      rfl

theorem delete_postconditions_witness :
    (∃ e, (Json.obj [("$", Json.obj [])]).getIn ["$", "a"] = Except.error e) ∧
    ((Json.obj [("$", Json.arr [Json.int 1, Json.null])]).getIn ["$", "1"] =
        .ok Json.null ∧
     (Json.obj [("$", Json.arr [Json.int 1, Json.null])]).getIn ["$"] =
        .ok (Json.arr [Json.int 1, Json.null]) ∧
     ([Json.int 1, Json.null] : List Json).length = 2 ∧
     (∀ j : Nat, j ≠ 1 →
        ([Json.int 1, Json.null] : List Json).get? j =
          ([Json.int 1, Json.int 2] : List Json).get? j)) := by
  have hse : (Json.obj [("$", Json.obj [("a", Json.int 1)])]).setIn ["$"] (Json.obj []) =
      .ok (Json.obj [("$", Json.obj [])]) := by
    rw [setIn_single_obj]
    rfl
  have h2 : (Json.obj [("$", Json.obj [("a", Json.int 1)])]).deleteIn ["$", "a"] =
      (match (Json.obj [("$", Json.obj [("a", Json.int 1)])]).setIn ["$"] (Json.obj []) with
       | .ok o => Except.ok o
       | .error _ => Except.ok Json.null) := rfl
  have hdel : (Json.obj [("$", Json.obj [("a", Json.int 1)])]).deleteIn ["$", "a"] =
      .ok (Json.obj [("$", Json.obj [])]) := by
    rw [h2, hse]
  have hse2 : (Json.obj [("$", Json.arr [Json.int 1, Json.int 2])]).setIn ["$"]
      (Json.arr [Json.int 1, Json.null]) =
      .ok (Json.obj [("$", Json.arr [Json.int 1, Json.null])]) := by
    rw [setIn_single_obj]
    rfl
  have h4 : (Json.obj [("$", Json.arr [Json.int 1, Json.int 2])]).deleteIn ["$", "1"] =
      (match (Json.obj [("$", Json.arr [Json.int 1, Json.int 2])]).setIn ["$"]
          (Json.arr [Json.int 1, Json.null]) with
       | .ok o => Except.ok o
       | .error _ => Except.ok Json.null) := rfl
  have hdel2 : (Json.obj [("$", Json.arr [Json.int 1, Json.int 2])]).deleteIn ["$", "1"] =
      .ok (Json.obj [("$", Json.arr [Json.int 1, Json.null])]) := by
    rw [h4, hse2]
  exact ⟨delete_postconditions.1 [("$", Json.obj [("a", Json.int 1)])] ["$", "a"]
      (by decide) [("a", Json.int 1)] (Json.obj [("$", Json.obj [])]) rfl (by decide) hdel,
    delete_postconditions.2 [("$", Json.arr [Json.int 1, Json.int 2])] ["$", "1"]
      (by decide) [Json.int 1, Json.int 2] 1
      (Json.obj [("$", Json.arr [Json.int 1, Json.null])]) rfl rfl (by decide) (by decide)
      hdel2⟩
